import Mathlib

/-!
Shallow embedding of the MazeRunner game component (maze generation via an
iterative randomized depth-first backtracker, an optional braiding pass for
the hard difficulty, the player-movement validator `movePlayer`, and the
fog-of-war visibility query `isInFog`).

Modelling conventions:
* JS numbers that hold grid coordinates are embedded as `Int` (the code
  forms `x + dx` with `dx ∈ {-1, 0, 1}` and compares against `0` and `size`).
* The mutable `Cell[][]` grid is embedded as a total function
  `Position → Cell`; the code only ever reads or writes in-bounds indices,
  and every access in the algorithms below is bounds-checked exactly where
  the source checks bounds.
* `Math.random()`-driven choices are embedded as an arbitrary stream
  `rng : Nat → Nat` of natural numbers, reduced modulo the number of
  candidates at each choice point (the source computes
  `Math.floor(Math.random() * n)`, a uniform index `< n`); theorems
  quantify over all streams.
* The `while` loop of the carver is run on explicit fuel `2 * size * size`,
  which is proved sufficient (the loop measure
  `2 * #unvisited + stack.length` strictly decreases).
-/

namespace MazeRunner

/-- The four wall flags of a cell (`walls: {top, right, bottom, left}`). -/
structure Walls where
  top : Bool
  right : Bool
  bottom : Bool
  left : Bool
deriving DecidableEq

/-- A maze cell: four wall flags plus the generation-time `visited` flag.
(The source also stores the cell's own coordinates `x`, `y`; here cells are
addressed by their coordinates, so those fields are the index.) -/
structure Cell where
  walls : Walls
  visited : Bool
deriving DecidableEq

/-- `interface Position { x: number; y: number }`. -/
structure Position where
  x : Int
  y : Int
deriving DecidableEq

/-- The grid `Cell[][]`, addressed by position. -/
abbrev Grid := Position → Cell

/-- The four movement directions, in the order the source lists them in its
`directions` array. -/
inductive Dir
  | top
  | right
  | bottom
  | left
deriving DecidableEq, Fintype

/-- `dx` of a direction, from the source's `directions` table. -/
def Dir.dx : Dir → Int
  | .top => 0
  | .right => 1
  | .bottom => 0
  | .left => -1

/-- `dy` of a direction, from the source's `directions` table. -/
def Dir.dy : Dir → Int
  | .top => -1
  | .right => 0
  | .bottom => 1
  | .left => 0

/-- The `opposite` column of the source's `directions` table. -/
def Dir.opposite : Dir → Dir
  | .top => .bottom
  | .right => .left
  | .bottom => .top
  | .left => .right

/-- The source's `directions` array order: top, right, bottom, left. -/
def dirList : List Dir := [.top, .right, .bottom, .left]

/-- Read the wall flag of a cell in a given direction (`cell.walls[dir]`). -/
def Walls.get (w : Walls) : Dir → Bool
  | .top => w.top
  | .right => w.right
  | .bottom => w.bottom
  | .left => w.left

/-- Write the wall flag of a cell in a given direction
(`cell.walls[dir] = b`). -/
def Walls.set (w : Walls) : Dir → Bool → Walls
  | .top, b => { w with top := b }
  | .right, b => { w with right := b }
  | .bottom, b => { w with bottom := b }
  | .left, b => { w with left := b }

/-- The neighbouring position in a direction (`nx = x + dx; ny = y + dy`). -/
def stepPos (p : Position) (d : Dir) : Position :=
  ⟨p.x + d.dx, p.y + d.dy⟩

/-- Bounds check `x >= 0 && x < size && y >= 0 && y < size`. -/
def inB (size : Nat) (p : Position) : Prop :=
  0 ≤ p.x ∧ p.x < (size : Int) ∧ 0 ≤ p.y ∧ p.y < (size : Int)

instance (size : Nat) (p : Position) : Decidable (inB size p) := by
  unfold inB; exact inferInstance

/-- Functional update of one cell of the grid. -/
def updateCell (g : Grid) (p : Position) (f : Cell → Cell) : Grid :=
  fun q => if q = p then f (g p) else g q

/-- The freshly initialized grid: every cell has
`walls: {top: true, right: true, bottom: true, left: true}, visited: false`. -/
def initGrid : Grid :=
  fun _ => ⟨⟨true, true, true, true⟩, false⟩

/-- `current.walls[direction] = false; next.walls[opposite] = false` for the
neighbour `next = stepPos c d`. -/
def removeWallPair (g : Grid) (c : Position) (d : Dir) : Grid :=
  let g1 := updateCell g c fun cell => { cell with walls := cell.walls.set d false }
  updateCell g1 (stepPos c d) fun cell =>
    { cell with walls := cell.walls.set d.opposite false }

/-- The `neighbors` list built each iteration: the in-bounds, unvisited
neighbours of `c`, in the source's direction order. -/
def unvisitedNeighbors (size : Nat) (g : Grid) (c : Position) :
    List (Position × Dir) :=
  dirList.filterMap fun d =>
    let n := stepPos c d
    if inB size n ∧ ¬(g n).visited then some (n, d) else none

/-- State of the carving loop: the grid, the explicit DFS stack (head = top
of stack), and counters of push and pop operations performed. -/
structure CarveSt where
  grid : Grid
  stack : List Position
  pushes : Nat
  pops : Nat

/-- One-step-at-a-time embedding of the carver's `while (stack.length > 0)`
loop, on explicit fuel.  Each iteration peeks the top cell, collects its
unvisited in-bounds neighbours, and either descends through a randomly
chosen one (removing the wall pair, marking it visited, pushing it) or
backtracks by popping. -/
def carveLoop (size : Nat) (rng : Nat → Nat) :
    Nat → Nat → CarveSt → CarveSt
  | 0, _, st => st
  | fuel + 1, k, st =>
    match st.stack with
    | [] => st
    | current :: rest =>
      let ns := unvisitedNeighbors size st.grid current
      if hns : ns = [] then
        carveLoop size rng fuel (k + 1)
          { st with stack := rest, pops := st.pops + 1 }
      else
        let choice := ns.get ⟨rng k % ns.length,
          Nat.mod_lt _ (List.length_pos.mpr hns)⟩
        let g1 := removeWallPair st.grid current choice.2
        let g2 := updateCell g1 choice.1 fun cell => { cell with visited := true }
        carveLoop size rng fuel (k + 1)
          { grid := g2, stack := choice.1 :: current :: rest,
            pushes := st.pushes + 1, pops := st.pops }

/-- The grid right before the loop: `startCell.visited = true`. -/
def carveStart : Grid :=
  updateCell initGrid ⟨0, 0⟩ fun c => { c with visited := true }

/-- The carving phase: mark the start cell `(0,0)` visited, push it, and run
the backtracking loop (fuel `2·size²` is proved sufficient below). -/
def carve (size : Nat) (rng : Nat → Nat) : CarveSt :=
  carveLoop size rng (2 * size * size) 0
    { grid := carveStart, stack := [⟨0, 0⟩], pushes := 1, pops := 0 }

/-- One iteration of the braiding (`extra paths`) pass for hard mode: pick a
random cell, list its currently-present walls in the source's key order,
pick one at random, and clear the pair only if the neighbour is in bounds.
`r1 r2 r3` are the three random draws of the iteration. -/
def braidStep (size : Nat) (g : Grid) (r1 r2 r3 : Nat) : Grid :=
  let p : Position := ⟨(r1 % size : Nat), (r2 % size : Nat)⟩
  let cell := g p
  let wallDirs := dirList.filter fun d => cell.walls.get d
  if hw : wallDirs = [] then g
  else
    let d := wallDirs.get ⟨r3 % wallDirs.length,
      Nat.mod_lt _ (List.length_pos.mpr hw)⟩
    let n := stepPos p d
    if inB size n then removeWallPair g p d else g

/-- The braiding loop, iterated `count` times on random stream `rng`
(three draws per iteration). -/
def braidIter (size : Nat) (rng : Nat → Nat) : Nat → Grid → Grid
  | 0, g => g
  | i + 1, g =>
    braidIter size rng i
      (braidStep size g (rng (3 * i)) (rng (3 * i + 1)) (rng (3 * i + 2)))

/-- `extraPaths = Math.floor(size * size * 0.05)` (exact for the sizes the
game uses; embedded as natural division by 20). -/
def extraPaths (size : Nat) : Nat :=
  size * size * 5 / 100

/-- The full braiding pass. -/
def braid (size : Nat) (rng : Nat → Nat) (g : Grid) : Grid :=
  braidIter size rng (extraPaths size) g

/-- Difficulty levels. -/
inductive Difficulty
  | easy
  | hard
  | insane
deriving DecidableEq

/-- `generateMaze(size)`: initialize the grid, carve with the recursive
backtracker, and for hard difficulty run the braiding pass.  `none` models
the `TypeError` thrown by the source's unchecked `grid[0][0]` access when
`size = 0` (the source performs no explicit size validation). -/
def generateMaze (difficulty : Difficulty) (rngCarve rngBraid : Nat → Nat)
    (size : Nat) : Option Grid :=
  if size = 0 then none
  else
    let carved := carve size rngCarve
    if difficulty = .hard then some (braid size rngBraid carved.grid)
    else some carved.grid

/-- The game-state enum `'playing' | 'won' | 'lost'`. -/
inductive GState
  | playing
  | won
  | lost
deriving DecidableEq

/-- The component state read and written by `movePlayer`: game state,
player position, move counter, trail, and the `lastMoveTime` ref. -/
structure GameSt where
  gameState : GState
  playerPos : Position
  moveCount : Nat
  trail : List Position
  lastMoveTime : Int
deriving DecidableEq

/-- `MOVE_COOLDOWN = 150; // ms between moves`. -/
def MOVE_COOLDOWN : Int := 150

/-- `movePlayer(dx, dy)`.  `mazeLen` is `maze.length` (0 before the maze
state is populated), `now` is `Date.now()` at the call.  Every early-return
path of the source returns the state unchanged; an accepted move updates
`lastMoveTime`, the position, the move count and the trail, and switches to
`won` exactly when the new position is the goal `(size-1, size-1)`. -/
def movePlayer (size : Nat) (maze : Grid) (mazeLen : Nat) (now : Int)
    (s : GameSt) (dx dy : Int) : GameSt :=
  if s.gameState ≠ .playing ∨ mazeLen = 0 then s
  else if now - s.lastMoveTime < MOVE_COOLDOWN then s
  else
    let newX := s.playerPos.x + dx
    let newY := s.playerPos.y + dy
    if newX < 0 ∨ (size : Int) ≤ newX ∨ newY < 0 ∨ (size : Int) ≤ newY then s
    else
      let currentCell := maze s.playerPos
      if dx = 1 ∧ currentCell.walls.right then s
      else if dx = -1 ∧ currentCell.walls.left then s
      else if dy = 1 ∧ currentCell.walls.bottom then s
      else if dy = -1 ∧ currentCell.walls.top then s
      else
        { gameState :=
            if newX = (size : Int) - 1 ∧ newY = (size : Int) - 1 then .won
            else s.gameState
          playerPos := ⟨newX, newY⟩
          moveCount := s.moveCount + 1
          trail := s.trail ++ [⟨newX, newY⟩]
          lastMoveTime := now }

/-- `isInFog(x, y)`: `false` when the fog radius is `Infinity` (embedded as
`none`); otherwise the cell is fogged when either coordinate distance
exceeds the radius. -/
def isInFog (fogRadius : Option Nat) (playerPos : Position) (x y : Int) :
    Bool :=
  match fogRadius with
  | none => false
  | some r => (x - playerPos.x).natAbs > r || (y - playerPos.y).natAbs > r

/-! ### Derived notions used to state the claims: the cell set, counters,
and the graph whose vertices are cells and whose edges are open wall pairs. -/

/-- The finite set of in-bounds cell positions of an `size × size` grid. -/
def cells (size : Nat) : Finset Position :=
  (Finset.range size ×ˢ Finset.range size).image fun ab =>
    ⟨(ab.1 : Int), (ab.2 : Int)⟩

/-- Number of cells currently marked visited. -/
def visitedCount (size : Nat) (g : Grid) : Nat :=
  ((cells size).filter fun p => (g p).visited).card

/-- Number of cells not yet visited. -/
def unvisitedCount (size : Nat) (g : Grid) : Nat :=
  ((cells size).filter fun p => ¬(g p).visited).card

/-- The wall pair between `p` and its right neighbour is open (both matching
flags cleared). -/
def pairOpenRight (g : Grid) (p : Position) : Prop :=
  (g p).walls.get .right = false ∧
    (g (stepPos p .right)).walls.get .left = false

/-- The wall pair between `p` and its bottom neighbour is open. -/
def pairOpenBottom (g : Grid) (p : Position) : Prop :=
  (g p).walls.get .bottom = false ∧
    (g (stepPos p .bottom)).walls.get .top = false

instance (g : Grid) (p : Position) : Decidable (pairOpenRight g p) := by
  unfold pairOpenRight; exact inferInstance

instance (g : Grid) (p : Position) : Decidable (pairOpenBottom g p) := by
  unfold pairOpenBottom; exact inferInstance

/-- Number of open wall pairs: each adjacent pair of cells is counted once,
through the left/upper endpoint. -/
def openCount (size : Nat) (g : Grid) : Nat :=
  ((cells size).filter fun p =>
      inB size (stepPos p .right) ∧ pairOpenRight g p).card +
  ((cells size).filter fun p =>
      inB size (stepPos p .bottom) ∧ pairOpenBottom g p).card

/-- Adjacency of the carved-opening graph: two in-bounds cells joined by an
open wall pair. -/
def openAdj (size : Nat) (g : Grid) (p q : Position) : Prop :=
  (inB size p ∧ inB size q) ∧
    ((q = stepPos p .right ∧ pairOpenRight g p) ∨
      (p = stepPos q .right ∧ pairOpenRight g q) ∨
      (q = stepPos p .bottom ∧ pairOpenBottom g p) ∨
      (p = stepPos q .bottom ∧ pairOpenBottom g q))

theorem stepPos_ne (p : Position) (d : Dir) : stepPos p d ≠ p := by
  obtain ⟨x, y⟩ := p
  cases d <;> simp [stepPos, Dir.dx, Dir.dy]

/-- The graph whose vertices are cells and whose edges are open wall pairs. -/
def openGraph (size : Nat) (g : Grid) : SimpleGraph Position where
  Adj := openAdj size g
  symm := by
    intro p q h
    obtain ⟨hb, hd⟩ := h
    exact ⟨⟨hb.2, hb.1⟩, by tauto⟩
  loopless := by
    intro p h
    obtain ⟨-, hd⟩ := h
    rcases hd with ⟨h, -⟩ | ⟨h, -⟩ | ⟨h, -⟩ | ⟨h, -⟩ <;>
      exact stepPos_ne p _ h.symm

/-- Wall symmetry: each cell's flag toward an in-bounds neighbour agrees
with the neighbour's flag back. -/
def WallSymm (size : Nat) (g : Grid) : Prop :=
  ∀ p d, inB size p → inB size (stepPos p d) →
    (g p).walls.get d = (g (stepPos p d)).walls.get d.opposite

/-- All boundary-facing walls of the grid are present: every in-bounds cell
keeps its wall toward each out-of-bounds neighbour. -/
def BorderWalls (size : Nat) (g : Grid) : Prop :=
  ∀ p d, inB size p → ¬ inB size (stepPos p d) → (g p).walls.get d = true

/-- The goal cell `(size - 1, size - 1)`. -/
def goal (size : Nat) : Position :=
  ⟨(size : Int) - 1, (size : Int) - 1⟩

/-! ### Characterization of `movePlayer` -/

set_option maxHeartbeats 3200000 in
/-- Every early-return path of `movePlayer` leaves the state unchanged. -/
theorem movePlayer_reject (size : Nat) (maze : Grid) (mazeLen : Nat)
    (now : Int) (s : GameSt) (d : Dir)
    (h : s.gameState ≠ .playing ∨ mazeLen = 0 ∨
      now - s.lastMoveTime < MOVE_COOLDOWN ∨
      ¬ inB size (stepPos s.playerPos d) ∨
      (maze s.playerPos).walls.get d = true) :
    movePlayer size maze mazeLen now s d.dx d.dy = s := by
  obtain ⟨gs, ⟨px, py⟩, mc, tr, lmt⟩ := s
  cases d
  all_goals simp only [stepPos, Dir.dx, Dir.dy, inB, Walls.get, MOVE_COOLDOWN] at h
  all_goals simp only [Dir.dx, Dir.dy]
  all_goals simp only [movePlayer]
  all_goals split_ifs with h1 h2 h3 h4 h5 h6 h7 h8 <;> try rfl
  all_goals
    exfalso
    simp only [MOVE_COOLDOWN] at h2
    rcases h with h | h | h | h | h
    · exact h1 (Or.inl h)
    · exact h1 (Or.inr h)
    · omega
    · omega
    · simp_all

set_option maxHeartbeats 3200000 in
/-- A move that passes all of `movePlayer`'s checks updates the state as the
final branch of the source does. -/
theorem movePlayer_accept (size : Nat) (maze : Grid) (mazeLen : Nat)
    (now : Int) (s : GameSt) (d : Dir)
    (hplay : s.gameState = .playing) (hlen : mazeLen ≠ 0)
    (hcool : MOVE_COOLDOWN ≤ now - s.lastMoveTime)
    (hin : inB size (stepPos s.playerPos d))
    (hwall : (maze s.playerPos).walls.get d = false) :
    movePlayer size maze mazeLen now s d.dx d.dy =
      { gameState :=
          if stepPos s.playerPos d = goal size then .won else s.gameState
        playerPos := stepPos s.playerPos d
        moveCount := s.moveCount + 1
        trail := s.trail ++ [stepPos s.playerPos d]
        lastMoveTime := now } := by
  obtain ⟨gs, ⟨px, py⟩, mc, tr, lmt⟩ := s
  simp only at hplay
  subst hplay
  cases d
  all_goals simp only [stepPos, Dir.dx, Dir.dy, inB, Walls.get, MOVE_COOLDOWN]
    at hcool hin hwall ⊢
  all_goals simp only [movePlayer]
  all_goals rw [if_neg (by simp [hlen])]
  all_goals rw [if_neg (by simp only [MOVE_COOLDOWN]; omega)]
  all_goals rw [if_neg (by omega)]
  all_goals simp only [hwall]
  all_goals norm_num
  all_goals simp [goal, Position.mk.injEq]

/-- Trichotomy used by the state-machine claims: a call to `movePlayer`
either leaves the state unchanged or performs the accepted-move update. -/
theorem movePlayer_cases (size : Nat) (maze : Grid) (mazeLen : Nat)
    (now : Int) (s : GameSt) (d : Dir) :
    movePlayer size maze mazeLen now s d.dx d.dy = s ∨
      movePlayer size maze mazeLen now s d.dx d.dy =
        { gameState :=
            if stepPos s.playerPos d = goal size then .won else s.gameState
          playerPos := stepPos s.playerPos d
          moveCount := s.moveCount + 1
          trail := s.trail ++ [stepPos s.playerPos d]
          lastMoveTime := now } := by
  by_cases h1 : s.gameState = .playing
  case neg => exact Or.inl (movePlayer_reject _ _ _ _ _ _ (Or.inl h1))
  by_cases h2 : mazeLen = 0
  case neg =>
    by_cases h3 : now - s.lastMoveTime < MOVE_COOLDOWN
    case pos => exact Or.inl (movePlayer_reject _ _ _ _ _ _ (by tauto))
    by_cases h4 : inB size (stepPos s.playerPos d)
    case neg => exact Or.inl (movePlayer_reject _ _ _ _ _ _ (by tauto))
    by_cases h5 : (maze s.playerPos).walls.get d = true
    case pos => exact Or.inl (movePlayer_reject _ _ _ _ _ _ (by tauto))
    exact Or.inr (movePlayer_accept _ _ _ _ _ _ h1 h2 (by omega) h4
      (by simpa using h5))
  case pos => exact Or.inl (movePlayer_reject _ _ _ _ _ _ (Or.inr (Or.inl h2)))

/-- **C2.** If the candidate cell is out of grid bounds or the wall between
the player's cell and the candidate in the move's direction is present, then
`movePlayer` leaves the whole state unchanged (`state before = state after`);
being a total function, it throws nothing. -/
theorem movePlayer_illegal_is_noop (size : Nat) (maze : Grid) (mazeLen : Nat)
    (now : Int) (s : GameSt) (d : Dir)
    (h : ¬ inB size (stepPos s.playerPos d) ∨
      (maze s.playerPos).walls.get d = true) :
    movePlayer size maze mazeLen now s d.dx d.dy = s :=
  movePlayer_reject size maze mazeLen now s d (by tauto)

/-- Witness for C2: moving up from `(0,0)` on an all-walls grid is rejected
and the state is unchanged. -/
theorem movePlayer_illegal_is_noop_witness :
    (¬ inB 2 (stepPos (⟨0, 0⟩ : Position) .top) ∨
      (initGrid ⟨0, 0⟩).walls.get .top = true) ∧
    movePlayer 2 initGrid 2 1000 ⟨.playing, ⟨0, 0⟩, 0, [], 0⟩
        Dir.top.dx Dir.top.dy = ⟨.playing, ⟨0, 0⟩, 0, [], 0⟩ :=
  ⟨by decide,
    movePlayer_illegal_is_noop 2 initGrid 2 1000 ⟨.playing, ⟨0, 0⟩, 0, [], 0⟩
      .top (by decide)⟩

/-- A 2×2 grid whose wall pair between `(0,0)` and `(1,0)` is open. -/
def mazeOpen : Grid := removeWallPair initGrid ⟨0, 0⟩ .right

/-- A playing state at the start cell with `lastMoveTime = 0`. -/
def stC4 : GameSt := ⟨.playing, ⟨0, 0⟩, 0, [⟨0, 0⟩], 0⟩

/-- **C4, counterexample.** At `now = 100` — within 150 ms of
`lastMoveTime = 0` — a move that is legal by bounds and walls (right from
`(0,0)` through an open wall, in the playing state) does not move the
player: `movePlayer` itself enforces the inter-move cooldown, so legality is
not decided by bounds and walls alone. -/
theorem movePlayer_cooldown_blocks_legal_move :
    stC4.gameState = .playing ∧
    inB 2 (stepPos stC4.playerPos .right) ∧
    (mazeOpen stC4.playerPos).walls.get .right = false ∧
    movePlayer 2 mazeOpen 2 100 stC4 Dir.right.dx Dir.right.dy = stC4 := by
  decide

/-- **C4 (amended).** In the playing state, a move whose candidate cell is
in bounds and reachable through an open wall is performed — provided at
least `MOVE_COOLDOWN` (150 ms) has elapsed since `lastMoveTime`.
`movePlayer` enforces this inter-move interval itself, in addition to the
bounds and wall checks. -/
theorem movePlayer_legal_move_moves (size : Nat) (maze : Grid)
    (mazeLen : Nat) (now : Int) (s : GameSt) (d : Dir)
    (hplay : s.gameState = .playing) (hlen : mazeLen ≠ 0)
    (hcool : MOVE_COOLDOWN ≤ now - s.lastMoveTime)
    (hin : inB size (stepPos s.playerPos d))
    (hwall : (maze s.playerPos).walls.get d = false) :
    (movePlayer size maze mazeLen now s d.dx d.dy).playerPos =
      stepPos s.playerPos d ∧
    (movePlayer size maze mazeLen now s d.dx d.dy).moveCount =
      s.moveCount + 1 := by
  rw [movePlayer_accept size maze mazeLen now s d hplay hlen hcool hin hwall]
  exact ⟨rfl, rfl⟩

/-- Witness for the amended C4: with the cooldown elapsed the same legal
move is performed. -/
theorem movePlayer_legal_move_moves_witness :
    (stC4.gameState = .playing ∧ (2 : Nat) ≠ 0 ∧
      MOVE_COOLDOWN ≤ 1000 - stC4.lastMoveTime ∧
      inB 2 (stepPos stC4.playerPos .right) ∧
      (mazeOpen stC4.playerPos).walls.get .right = false) ∧
    (movePlayer 2 mazeOpen 2 1000 stC4 Dir.right.dx Dir.right.dy).playerPos =
      stepPos stC4.playerPos .right :=
  ⟨by decide,
    (movePlayer_legal_move_moves 2 mazeOpen 2 1000 stC4 .right (by decide)
      (by decide) (by decide) (by decide) (by decide)).1⟩

/-- **C5.** In the playing state, `movePlayer` ends in `won` exactly when it
performed a move and the resulting position is the goal `(size-1, size-1)`;
whenever the resulting position is not the goal the state stays `playing`,
so no move to a non-goal cell ever produces `won`. -/
theorem movePlayer_won_iff_goal (size : Nat) (maze : Grid) (mazeLen : Nat)
    (now : Int) (s : GameSt) (d : Dir) (hplay : s.gameState = .playing) :
    ((movePlayer size maze mazeLen now s d.dx d.dy).gameState = .won ↔
      ((movePlayer size maze mazeLen now s d.dx d.dy).playerPos = goal size ∧
        (movePlayer size maze mazeLen now s d.dx d.dy).playerPos ≠
          s.playerPos)) ∧
    ((movePlayer size maze mazeLen now s d.dx d.dy).playerPos ≠ goal size →
      (movePlayer size maze mazeLen now s d.dx d.dy).gameState = .playing) := by
  rcases movePlayer_cases size maze mazeLen now s d with h | h <;> rw [h]
  · rw [hplay]
    constructor
    · constructor
      · intro hw; cases hw
      · rintro ⟨-, hne⟩; exact absurd rfl hne
    · intro; rfl
  · by_cases hg : stepPos s.playerPos d = goal size
    · rw [if_pos hg]
      constructor
      · exact ⟨fun _ => ⟨hg, fun he => stepPos_ne s.playerPos d he⟩,
          fun _ => rfl⟩
      · intro hne; exact absurd hg hne
    · rw [if_neg hg, hplay]
      constructor
      · constructor
        · intro hw; cases hw
        · rintro ⟨hgoal, -⟩; exact absurd hgoal hg
      · intro; rfl

/-- Witness for C5: an accepted non-goal move on the open 2×2 grid leaves
the state `playing`. -/
theorem movePlayer_won_iff_goal_witness :
    stC4.gameState = .playing ∧
    ((movePlayer 2 mazeOpen 2 1000 stC4 Dir.right.dx Dir.right.dy).playerPos ≠
        goal 2 →
      (movePlayer 2 mazeOpen 2 1000 stC4 Dir.right.dx
          Dir.right.dy).gameState = .playing) :=
  ⟨by decide,
    (movePlayer_won_iff_goal 2 mazeOpen 2 1000 stC4 .right (by decide)).2⟩

/-- **C8.** For every finite fog radius, a cell is visible (not in fog) if
and only if its Chebyshev distance to the player is at most the radius; in
particular with radius 3 and the player at `(5,5)`, cell `(9,9)` is fogged
and cell `(7,6)` is visible. -/
theorem isInFog_chebyshev :
    (∀ (r : Nat) (pp : Position) (x y : Int),
      isInFog (some r) pp x y = false ↔
        max (x - pp.x).natAbs (y - pp.y).natAbs ≤ r) ∧
    isInFog (some 3) ⟨5, 5⟩ 9 9 = true ∧
    isInFog (some 3) ⟨5, 5⟩ 7 6 = false := by
  refine ⟨fun r pp x y => ?_, by decide, by decide⟩
  simp [isInFog, max_le_iff, Nat.not_lt]

/-- An arbitrary concrete random stream. -/
def rng0 : Nat → Nat := fun _ => 0

/-- **C3, counterexample.** `generateMaze` with size `N = 1 < 2` is not
rejected: it succeeds and returns a maze (the source has no size
validation). -/
theorem generateMaze_size_one_not_rejected :
    (generateMaze .easy rng0 rng0 1).isSome = true := by
  decide

/-- **C3 (amended).** `generateMaze` performs no explicit size validation:
it fails only for `N = 0` (where the source's unchecked `grid[0][0]` access
throws a `TypeError`), succeeds for every `N ≥ 1` — including `N = 1` —
and the grid is initialized with every cell having all four walls present
and `visited = false`. -/
theorem generateMaze_construction (difficulty : Difficulty)
    (rngCarve rngBraid : Nat → Nat) (size : Nat) :
    (size = 0 → generateMaze difficulty rngCarve rngBraid size = none) ∧
    (1 ≤ size →
      (generateMaze difficulty rngCarve rngBraid size).isSome = true) ∧
    (∀ p, (initGrid p).walls = ⟨true, true, true, true⟩ ∧
      (initGrid p).visited = false) := by
  refine ⟨fun h => by simp [generateMaze, h], fun h => ?_, fun p => ⟨rfl, rfl⟩⟩
  unfold generateMaze
  rw [if_neg (by omega)]
  split <;> rfl

/-- Witness for the amended C3: construction succeeds at `N = 1`. -/
theorem generateMaze_construction_witness :
    (1 : Nat) ≤ 1 ∧ (generateMaze .easy rng0 rng0 1).isSome = true :=
  ⟨le_refl 1, (generateMaze_construction .easy rng0 rng0 1).2.1 (le_refl 1)⟩

/-! ### Basic lemmas about the primitive operations -/

theorem Walls.get_set_self (w : Walls) (d : Dir) (b : Bool) :
    (w.set d b).get d = b := by
  cases d <;> rfl

theorem Walls.get_set_ne (w : Walls) (d d' : Dir) (b : Bool) (h : d' ≠ d) :
    (w.set d b).get d' = w.get d' := by
  cases d <;> cases d' <;> first | rfl | exact absurd rfl h

theorem Dir.opposite_opposite (d : Dir) : d.opposite.opposite = d := by
  cases d <;> rfl

theorem Dir.opposite_inj {d d' : Dir} (h : d.opposite = d'.opposite) :
    d = d' := by
  cases d <;> cases d' <;> first | rfl | exact absurd h (by decide)

theorem stepPos_opposite (p : Position) (d : Dir) :
    stepPos (stepPos p d) d.opposite = p := by
  obtain ⟨x, y⟩ := p
  cases d <;> simp [stepPos, Dir.dx, Dir.dy, Dir.opposite] <;> omega

theorem stepPos_inj {p q : Position} (d : Dir) (h : stepPos p d = stepPos q d) :
    p = q := by
  obtain ⟨x, y⟩ := p
  obtain ⟨a, b⟩ := q
  cases d <;> simp [stepPos, Dir.dx, Dir.dy] at h ⊢ <;> omega

theorem updateCell_self (g : Grid) (p : Position) (f : Cell → Cell) :
    updateCell g p f p = f (g p) := by
  simp [updateCell]

theorem updateCell_ne (g : Grid) (p q : Position) (f : Cell → Cell)
    (h : q ≠ p) : updateCell g p f q = g q := by
  simp [updateCell, h]

theorem removeWallPair_visited (g : Grid) (c : Position) (d : Dir)
    (p : Position) :
    ((removeWallPair g c d) p).visited = (g p).visited := by
  unfold removeWallPair updateCell
  split <;> split <;> simp_all

theorem removeWallPair_walls (g : Grid) (c : Position) (d : Dir)
    (p : Position) :
    ((removeWallPair g c d) p).walls =
      if p = stepPos c d then (g p).walls.set d.opposite false
      else if p = c then (g p).walls.set d false
      else (g p).walls := by
  unfold removeWallPair updateCell
  have hcn : c ≠ stepPos c d := (stepPos_ne c d).symm
  by_cases h1 : p = stepPos c d
  · subst h1
    simp [if_neg (Ne.symm hcn)]
  · by_cases h2 : p = c
    · subst h2
      simp [if_neg hcn, if_neg h1]
    · simp [h1, h2]

/-- Membership in the unvisited-neighbour list of the carver. -/
theorem mem_unvisitedNeighbors {size : Nat} {g : Grid} {c : Position}
    {nd : Position × Dir} :
    nd ∈ unvisitedNeighbors size g c ↔
      nd.1 = stepPos c nd.2 ∧ inB size nd.1 ∧ (g nd.1).visited = false := by
  obtain ⟨n, d⟩ := nd
  constructor
  · intro h
    obtain ⟨d', -, hd'⟩ := List.mem_filterMap.mp h
    by_cases hc : inB size (stepPos c d') ∧ ¬(g (stepPos c d')).visited
    · rw [if_pos hc] at hd'
      obtain ⟨h1, h2⟩ := Prod.mk.injEq .. ▸ Option.some.injEq .. ▸ hd'
      cases hd'
      exact ⟨rfl, hc.1, by simpa using hc.2⟩
    · rw [if_neg hc] at hd'
      cases hd'
  · rintro ⟨h1, h2, h3⟩
    refine List.mem_filterMap.mpr ⟨d, ?_, ?_⟩
    · cases d <;> simp [dirList]
    · rw [← h1, if_pos ⟨h1 ▸ h2, by simp [h3]⟩]

/-- One unfolding step of the carving loop, with the random choice hidden
behind list membership. -/
theorem carveLoop_succ (size : Nat) (rng : Nat → Nat) (fuel k : Nat)
    (st : CarveSt) :
    (st.stack = [] ∧ carveLoop size rng (fuel + 1) k st = st) ∨
    (∃ current rest, st.stack = current :: rest ∧
      ((unvisitedNeighbors size st.grid current = [] ∧
          carveLoop size rng (fuel + 1) k st =
            carveLoop size rng fuel (k + 1)
              ⟨st.grid, rest, st.pushes, st.pops + 1⟩) ∨
        (∃ nd ∈ unvisitedNeighbors size st.grid current,
          carveLoop size rng (fuel + 1) k st =
            carveLoop size rng fuel (k + 1)
              ⟨updateCell (removeWallPair st.grid current nd.2) nd.1
                  fun cell => { cell with visited := true },
                nd.1 :: current :: rest, st.pushes + 1, st.pops⟩))) := by
  obtain ⟨g, stk, pu, po⟩ := st
  cases stk with
  | nil => exact Or.inl ⟨rfl, rfl⟩
  | cons current rest =>
    refine Or.inr ⟨current, rest, rfl, ?_⟩
    by_cases hns : unvisitedNeighbors size g current = []
    · exact Or.inl ⟨hns, by simp [carveLoop, hns]⟩
    · refine Or.inr ⟨(unvisitedNeighbors size g current).get
        ⟨rng k % (unvisitedNeighbors size g current).length,
          Nat.mod_lt _ (List.length_pos.mpr hns)⟩, List.get_mem _ _ _, ?_⟩
      simp [carveLoop, hns]

/-- Flag-level description of `removeWallPair`: exactly the two matching
flags of the pair are cleared. -/
theorem removeWallPair_get (g : Grid) (c : Position) (d : Dir) (p : Position)
    (d' : Dir) :
    ((removeWallPair g c d) p).walls.get d' =
      if p = c ∧ d' = d then false
      else if p = stepPos c d ∧ d' = d.opposite then false
      else (g p).walls.get d' := by
  rw [removeWallPair_walls]
  by_cases h1 : p = stepPos c d
  · subst h1
    rw [if_pos rfl]
    have hne : stepPos c d ≠ c := stepPos_ne c d
    by_cases h2 : d' = d.opposite
    · subst h2
      rw [Walls.get_set_self, if_neg (fun hc => hne hc.1), if_pos ⟨rfl, rfl⟩]
    · rw [Walls.get_set_ne _ _ _ _ h2, if_neg (fun hc => hne hc.1),
        if_neg (fun hc => h2 hc.2)]
  · rw [if_neg h1]
    by_cases h2 : p = c
    · subst h2
      rw [if_pos rfl]
      by_cases h3 : d' = d
      · subst h3
        rw [Walls.get_set_self, if_pos ⟨rfl, rfl⟩]
      · rw [Walls.get_set_ne _ _ _ _ h3, if_neg (fun hc => h3 hc.2),
          if_neg (fun hc => h1 hc.1)]
    · rw [if_neg h2, if_neg (fun hc => h2 hc.1), if_neg (fun hc => h1 hc.1)]

/-- Marking a cell visited does not change any wall. -/
theorem updateVisited_walls (g : Grid) (n : Position) (p : Position) :
    ((updateCell g n fun cell => { cell with visited := true }) p).walls =
      (g p).walls := by
  unfold updateCell
  split <;> simp_all

/-- Marking a cell visited sets exactly that cell's flag. -/
theorem updateVisited_visited (g : Grid) (n : Position) (p : Position) :
    ((updateCell g n fun cell => { cell with visited := true }) p).visited =
      if p = n then true else (g p).visited := by
  unfold updateCell
  split <;> simp_all

/-- Wall symmetry only looks at walls. -/
theorem wallSymm_of_walls_eq {size : Nat} {g1 g2 : Grid}
    (h : ∀ p, (g1 p).walls = (g2 p).walls) (hs : WallSymm size g2) :
    WallSymm size g1 := by
  intro p d hp hq
  rw [h, h]
  exact hs p d hp hq

/-- `removeWallPair` clears both flags of one wall pair, so it preserves
wall symmetry. -/
theorem wallSymm_removeWallPair {size : Nat} {g : Grid}
    (hs : WallSymm size g) (c : Position) (d : Dir) :
    WallSymm size (removeWallPair g c d) := by
  intro p d' hp hq
  rw [removeWallPair_get, removeWallPair_get]
  by_cases h1 : p = c ∧ d' = d
  · obtain ⟨he1, he2⟩ := h1
    have hr1 : ¬(stepPos p d' = c ∧ d'.opposite = d) := by
      rw [he1, he2]
      rintro ⟨hx, -⟩
      exact stepPos_ne c d hx
    have hr2 : stepPos p d' = stepPos c d ∧ d'.opposite = d.opposite := by
      rw [he1, he2]
      exact ⟨rfl, rfl⟩
    rw [if_pos ⟨he1, he2⟩, if_neg hr1, if_pos hr2]
  · rw [if_neg h1]
    by_cases h2 : p = stepPos c d ∧ d' = d.opposite
    · obtain ⟨he1, he2⟩ := h2
      have hr1 : stepPos p d' = c ∧ d'.opposite = d := by
        rw [he1, he2]
        exact ⟨stepPos_opposite c d, Dir.opposite_opposite d⟩
      rw [if_pos ⟨he1, he2⟩, if_pos hr1]
    · rw [if_neg h2]
      have hr1 : ¬(stepPos p d' = c ∧ d'.opposite = d) := by
        rintro ⟨he, rfl⟩
        exact h2 ⟨by rw [← he, stepPos_opposite], (Dir.opposite_opposite d').symm⟩
      have hr2 : ¬(stepPos p d' = stepPos c d ∧ d'.opposite = d.opposite) := by
        rintro ⟨he, ho⟩
        have hd : d' = d := Dir.opposite_inj ho
        subst hd
        exact h1 ⟨stepPos_inj d' he, rfl⟩
      rw [if_neg hr1, if_neg hr2]
      exact hs p d' hp hq

/-- `removeWallPair` between two in-bounds cells preserves the border
walls. -/
theorem borderWalls_removeWallPair {size : Nat} {g : Grid}
    (hB : BorderWalls size g) {c : Position} {d : Dir} (hc : inB size c)
    (hn : inB size (stepPos c d)) :
    BorderWalls size (removeWallPair g c d) := by
  intro p d' hp hout
  rw [removeWallPair_get]
  have h1 : ¬(p = c ∧ d' = d) := by
    rintro ⟨rfl, rfl⟩
    exact hout hn
  have h2 : ¬(p = stepPos c d ∧ d' = d.opposite) := by
    rintro ⟨rfl, rfl⟩
    exact hout (by rw [stepPos_opposite]; exact hc)
  rw [if_neg h1, if_neg h2]
  exact hB p d' hp hout

/-- Border walls only look at walls. -/
theorem borderWalls_of_walls_eq {size : Nat} {g1 g2 : Grid}
    (h : ∀ p, (g1 p).walls = (g2 p).walls) (hB : BorderWalls size g2) :
    BorderWalls size g1 := by
  intro p d hp hout
  rw [h]
  exact hB p d hp hout

theorem wallSymm_initGrid (size : Nat) : WallSymm size initGrid := by
  intro p d _ _
  cases d <;> rfl

theorem borderWalls_initGrid (size : Nat) : BorderWalls size initGrid := by
  intro p d _ _
  cases d <;> rfl

theorem wallSymm_carveStart (size : Nat) : WallSymm size carveStart :=
  wallSymm_of_walls_eq (updateVisited_walls _ _) (wallSymm_initGrid size)

theorem borderWalls_carveStart (size : Nat) : BorderWalls size carveStart :=
  borderWalls_of_walls_eq (updateVisited_walls _ _) (borderWalls_initGrid size)

/-- Wall symmetry is preserved by every iteration of the carving loop. -/
theorem wallSymm_carveLoop (size : Nat) (rng : Nat → Nat) :
    ∀ fuel k st, WallSymm size st.grid →
      WallSymm size (carveLoop size rng fuel k st).grid := by
  intro fuel
  induction fuel with
  | zero => intro k st h; exact h
  | succ fuel ih =>
    intro k st h
    rcases carveLoop_succ size rng fuel k st with ⟨-, heq⟩ |
      ⟨c, rest, hstk, ⟨-, heq⟩ | ⟨nd, hnd, heq⟩⟩
    · rw [heq]; exact h
    · rw [heq]; exact ih _ _ h
    · rw [heq]
      exact ih _ _ (wallSymm_of_walls_eq (updateVisited_walls _ _)
        (wallSymm_removeWallPair h c nd.2))

/-- Wall symmetry is preserved by one braiding iteration. -/
theorem wallSymm_braidStep {size : Nat} {g : Grid} (h : WallSymm size g)
    (r1 r2 r3 : Nat) : WallSymm size (braidStep size g r1 r2 r3) := by
  simp only [braidStep]
  split
  · exact h
  · split
    · exact wallSymm_removeWallPair h _ _
    · exact h

theorem wallSymm_braidIter (size : Nat) (rng : Nat → Nat) :
    ∀ i g, WallSymm size g → WallSymm size (braidIter size rng i g) := by
  intro i
  induction i with
  | zero => intro g h; exact h
  | succ i ih =>
    intro g h
    exact ih _ (wallSymm_braidStep h _ _ _)

/-- The border walls and in-bounds-ness of the stack are preserved by the
carving loop. -/
theorem borderWalls_carveLoop (size : Nat) (rng : Nat → Nat) :
    ∀ fuel k st, (∀ p ∈ st.stack, inB size p) → BorderWalls size st.grid →
      (∀ p ∈ (carveLoop size rng fuel k st).stack, inB size p) ∧
        BorderWalls size (carveLoop size rng fuel k st).grid := by
  intro fuel
  induction fuel with
  | zero => intro k st hs hB; exact ⟨hs, hB⟩
  | succ fuel ih =>
    intro k st hs hB
    rcases carveLoop_succ size rng fuel k st with ⟨-, heq⟩ |
      ⟨c, rest, hstk, ⟨-, heq⟩ | ⟨nd, hnd, heq⟩⟩
    · rw [heq]; exact ⟨hs, hB⟩
    · rw [heq]
      exact ih _ _ (fun p hp => hs p (hstk ▸ List.mem_cons_of_mem c hp)) hB
    · rw [heq]
      obtain ⟨hstep, hin, -⟩ := mem_unvisitedNeighbors.mp hnd
      have hc : inB size c := hs c (hstk ▸ List.mem_cons_self c rest)
      refine ih _ _ ?_ ?_
      · intro p hp
        rcases List.mem_cons.mp hp with rfl | hp
        · exact hin
        · exact hs p (hstk ▸ hp)
      · exact borderWalls_of_walls_eq (updateVisited_walls _ _)
          (borderWalls_removeWallPair hB hc (hstep ▸ hin))

/-- Border walls are preserved by one braiding iteration (the source checks
bounds before clearing the pair). -/
theorem borderWalls_braidStep {size : Nat} {g : Grid} (hsize : 1 ≤ size)
    (hB : BorderWalls size g) (r1 r2 r3 : Nat) :
    BorderWalls size (braidStep size g r1 r2 r3) := by
  simp only [braidStep]
  split
  · exact hB
  · split
    case isTrue hn =>
      refine borderWalls_removeWallPair hB ?_ hn
      refine ⟨Int.natCast_nonneg _, ?_, Int.natCast_nonneg _, ?_⟩
      · show ((r1 % size : Nat) : Int) < (size : Int)
        exact_mod_cast Nat.mod_lt _ (by omega)
      · show ((r2 % size : Nat) : Int) < (size : Int)
        exact_mod_cast Nat.mod_lt _ (by omega)
    case isFalse => exact hB

theorem borderWalls_braidIter (size : Nat) (rng : Nat → Nat)
    (hsize : 1 ≤ size) :
    ∀ i g, BorderWalls size g → BorderWalls size (braidIter size rng i g) := by
  intro i
  induction i with
  | zero => intro g h; exact h
  | succ i ih =>
    intro g h
    exact ih _ (borderWalls_braidStep hsize h _ _ _)

/-- The two shapes a maze produced by `generateMaze` can have. -/
theorem generateMaze_some {difficulty : Difficulty} {rngC rngB : Nat → Nat}
    {size : Nat} {m : Grid}
    (hm : generateMaze difficulty rngC rngB size = some m) :
    1 ≤ size ∧
      (m = braid size rngB (carve size rngC).grid ∨
        m = (carve size rngC).grid) := by
  unfold generateMaze at hm
  by_cases h : size = 0
  · rw [if_pos h] at hm
    cases hm
  · rw [if_neg h] at hm
    refine ⟨by omega, ?_⟩
    by_cases hd : difficulty = .hard
    · rw [if_pos hd] at hm
      exact Or.inl (Option.some.inj hm).symm
    · rw [if_neg hd] at hm
      exact Or.inr (Option.some.inj hm).symm

theorem borderWalls_carve (size : Nat) (rng : Nat → Nat) (hsize : 1 ≤ size) :
    BorderWalls size (carve size rng).grid := by
  refine (borderWalls_carveLoop size rng _ _ _ ?_
    (borderWalls_carveStart size)).2
  intro p hp
  rcases List.mem_singleton.mp hp with rfl
  refine ⟨le_refl 0, ?_, le_refl 0, ?_⟩ <;>
    · show (0 : Int) < (size : Int)
      exact_mod_cast hsize

/-- **C10.** For every size, difficulty and random stream, every wall of the
returned maze that faces the outside of the grid is still present: the top
wall of row 0, the bottom wall of row `N-1`, the left wall of column 0 and
the right wall of column `N-1`.  Neither the bounds-checked carver nor the
bounds-checked braiding pass ever clears a boundary-facing flag. -/
theorem generateMaze_border_walls (size : Nat) (rngC rngB : Nat → Nat)
    (difficulty : Difficulty) (m : Grid)
    (hm : generateMaze difficulty rngC rngB size = some m) :
    ∀ p, inB size p →
      (p.y = 0 → (m p).walls.top = true) ∧
      (p.x = (size : Int) - 1 → (m p).walls.right = true) ∧
      (p.y = (size : Int) - 1 → (m p).walls.bottom = true) ∧
      (p.x = 0 → (m p).walls.left = true) := by
  obtain ⟨hsize, hcases⟩ := generateMaze_some hm
  have hB : BorderWalls size m := by
    rcases hcases with rfl | rfl
    · exact borderWalls_braidIter size rngB hsize _ _
        (borderWalls_carve size rngC hsize)
    · exact borderWalls_carve size rngC hsize
  intro p hp
  obtain ⟨hx0, hxs, hy0, hys⟩ := hp
  refine ⟨fun h => ?_, fun h => ?_, fun h => ?_, fun h => ?_⟩
  · exact hB p .top ⟨hx0, hxs, hy0, hys⟩
      (by simp [inB, stepPos, Dir.dx, Dir.dy]; omega)
  · exact hB p .right ⟨hx0, hxs, hy0, hys⟩
      (by simp [inB, stepPos, Dir.dx, Dir.dy]; omega)
  · exact hB p .bottom ⟨hx0, hxs, hy0, hys⟩
      (by simp [inB, stepPos, Dir.dx, Dir.dy]; omega)
  · exact hB p .left ⟨hx0, hxs, hy0, hys⟩
      (by simp [inB, stepPos, Dir.dx, Dir.dy]; omega)

/-- Witness for C10: the maze generated at size 2 keeps the start cell's top
and left walls. -/
theorem generateMaze_border_walls_witness :
    generateMaze .easy rng0 rng0 2 = some (carve 2 rng0).grid ∧
    inB 2 (⟨0, 0⟩ : Position) ∧
    (((carve 2 rng0).grid ⟨0, 0⟩).walls.top = true ∧
      ((carve 2 rng0).grid ⟨0, 0⟩).walls.left = true) :=
  ⟨rfl, by decide,
    ⟨(generateMaze_border_walls 2 rng0 rng0 .easy (carve 2 rng0).grid rfl
        ⟨0, 0⟩ (by decide)).1 rfl,
      (generateMaze_border_walls 2 rng0 rng0 .easy (carve 2 rng0).grid rfl
        ⟨0, 0⟩ (by decide)).2.2.2 rfl⟩⟩

/-- **C7.** Wall symmetry holds at every moment of generation and play: the
initial grid is symmetric, every prefix of the carving loop (any fuel, so in
particular every intermediate state and the final one) preserves symmetry,
every braiding iteration preserves symmetry, and hence every maze returned
by `generateMaze` is symmetric.  (`movePlayer` never writes to the grid, so
symmetry is untouched throughout play.) -/
theorem wall_symmetry_invariant (size : Nat) (rngC rngB : Nat → Nat) :
    (∀ fuel k st, WallSymm size st.grid →
      WallSymm size (carveLoop size rngC fuel k st).grid) ∧
    (∀ fuel, WallSymm size
      (carveLoop size rngC fuel 0
        ⟨carveStart, [⟨0, 0⟩], 1, 0⟩).grid) ∧
    (∀ i g, WallSymm size g → WallSymm size (braidIter size rngB i g)) ∧
    (∀ difficulty m, generateMaze difficulty rngC rngB size = some m →
      WallSymm size m) := by
  refine ⟨wallSymm_carveLoop size rngC, ?_, wallSymm_braidIter size rngB, ?_⟩
  · intro fuel
    exact wallSymm_carveLoop size rngC fuel 0 _ (wallSymm_carveStart size)
  · intro difficulty m hm
    obtain ⟨-, hcases⟩ := generateMaze_some hm
    rcases hcases with rfl | rfl
    · exact wallSymm_braidIter size rngB _ _
        (wallSymm_carveLoop size rngC _ 0 _ (wallSymm_carveStart size))
    · exact wallSymm_carveLoop size rngC _ 0 _ (wallSymm_carveStart size)

/-- Witness for C7: symmetry of the carved 2×2 grid, through the theorem. -/
theorem wall_symmetry_invariant_witness :
    WallSymm 2 (carveLoop 2 rng0 8 0 ⟨carveStart, [⟨0, 0⟩], 1, 0⟩).grid :=
  (wall_symmetry_invariant 2 rng0 rng0).2.1 8

/-! ### The cell set, counters, and termination of the carving loop -/

theorem mem_cells {size : Nat} {p : Position} :
    p ∈ cells size ↔ inB size p := by
  obtain ⟨x, y⟩ := p
  constructor
  · intro h
    obtain ⟨ab, hab, heq⟩ := Finset.mem_image.mp h
    rw [Finset.mem_product, Finset.mem_range, Finset.mem_range] at hab
    obtain ⟨ha, hb⟩ := hab
    have hx : ((ab.1 : Nat) : Int) = x := congrArg Position.x heq
    have hy : ((ab.2 : Nat) : Int) = y := congrArg Position.y heq
    show 0 ≤ x ∧ x < (size : Int) ∧ 0 ≤ y ∧ y < (size : Int)
    omega
  · intro h
    have h4 : 0 ≤ x ∧ x < (size : Int) ∧ 0 ≤ y ∧ y < (size : Int) := h
    obtain ⟨h1, h2, h3, h5⟩ := h4
    refine Finset.mem_image.mpr ⟨(x.toNat, y.toNat), ?_, ?_⟩
    · rw [Finset.mem_product, Finset.mem_range, Finset.mem_range]
      constructor <;> omega
    · show (⟨(x.toNat : Int), (y.toNat : Int)⟩ : Position) = ⟨x, y⟩
      have hx : ((x.toNat : Nat) : Int) = x := by omega
      have hy : ((y.toNat : Nat) : Int) = y := by omega
      rw [hx, hy]

theorem card_cells (size : Nat) : (cells size).card = size * size := by
  unfold cells
  have hinj : Function.Injective
      (fun ab : Nat × Nat => (⟨(ab.1 : Int), (ab.2 : Int)⟩ : Position)) := by
    rintro ⟨a, b⟩ ⟨a2, b2⟩ h
    simp only [Position.mk.injEq] at h
    obtain ⟨h1, h2⟩ := h
    simp only [Prod.mk.injEq]
    exact ⟨by exact_mod_cast h1, by exact_mod_cast h2⟩
  rw [Finset.card_image_of_injective _ hinj, Finset.card_product,
    Finset.card_range]

/-- Visited flags after the grid update of a push step. -/
theorem carvePush_visited (g : Grid) (c : Position) (d : Dir) (n : Position)
    (p : Position) :
    ((updateCell (removeWallPair g c d) n
        fun cell => { cell with visited := true }) p).visited =
      if p = n then true else (g p).visited := by
  rw [updateVisited_visited]
  split
  · rfl
  · exact removeWallPair_visited g c d p

/-- A push step removes exactly its chosen cell from the unvisited pool. -/
theorem unvisitedCount_carvePush {size : Nat} (g : Grid) (c : Position)
    (d : Dir) (n : Position) (hin : inB size n)
    (hnv : (g n).visited = false) :
    unvisitedCount size (updateCell (removeWallPair g c d) n
        fun cell => { cell with visited := true }) + 1 =
      unvisitedCount size g := by
  unfold unvisitedCount
  have hset : ((cells size).filter fun p =>
      ¬((updateCell (removeWallPair g c d) n
          fun cell => { cell with visited := true }) p).visited = true) =
      ((cells size).filter fun p => ¬(g p).visited = true).erase n := by
    ext q
    rw [Finset.mem_erase, Finset.mem_filter, Finset.mem_filter,
      carvePush_visited]
    constructor
    · rintro ⟨hq, hv⟩
      by_cases hqn : q = n
      · rw [if_pos hqn] at hv
        exact absurd rfl hv
      · rw [if_neg hqn] at hv
        exact ⟨hqn, hq, hv⟩
    · rintro ⟨hqn, hq, hv⟩
      rw [if_neg hqn]
      exact ⟨hq, hv⟩
  rw [hset, Finset.card_erase_add_one]
  rw [Finset.mem_filter]
  exact ⟨mem_cells.mpr hin, by simp [hnv]⟩

/-- A push step adds exactly its chosen cell to the visited pool. -/
theorem visitedCount_carvePush {size : Nat} (g : Grid) (c : Position)
    (d : Dir) (n : Position) (hin : inB size n)
    (hnv : (g n).visited = false) :
    visitedCount size (updateCell (removeWallPair g c d) n
        fun cell => { cell with visited := true }) =
      visitedCount size g + 1 := by
  unfold visitedCount
  have hset : ((cells size).filter fun p =>
      ((updateCell (removeWallPair g c d) n
          fun cell => { cell with visited := true }) p).visited = true) =
      insert n ((cells size).filter fun p => (g p).visited = true) := by
    ext q
    rw [Finset.mem_insert, Finset.mem_filter, Finset.mem_filter,
      carvePush_visited]
    constructor
    · rintro ⟨hq, hv⟩
      by_cases hqn : q = n
      · exact Or.inl hqn
      · rw [if_neg hqn] at hv
        exact Or.inr ⟨hq, hv⟩
    · rintro (rfl | ⟨hq, hv⟩)
      · exact ⟨mem_cells.mpr hin, by rw [if_pos rfl]⟩
      · by_cases hqn : q = n
        · exact ⟨hq, by rw [if_pos hqn]⟩
        · exact ⟨hq, by rw [if_neg hqn]; exact hv⟩
  rw [hset, Finset.card_insert_of_not_mem]
  rw [Finset.mem_filter]
  rintro ⟨-, hv⟩
  rw [hnv] at hv
  cases hv

/-- The loop terminates: once the fuel dominates the measure
`2·#unvisited + stack length`, the stack is empty at the end. -/
theorem carveLoop_empties (size : Nat) (rng : Nat → Nat) :
    ∀ fuel k st, 2 * unvisitedCount size st.grid + st.stack.length ≤ fuel →
      (carveLoop size rng fuel k st).stack = [] := by
  intro fuel
  induction fuel with
  | zero =>
    intro k st h
    have hlen : st.stack.length = 0 := by omega
    exact List.length_eq_zero.mp hlen
  | succ fuel ih =>
    intro k st h
    rcases carveLoop_succ size rng fuel k st with ⟨hstk, heq⟩ |
      ⟨c, rest, hstk, ⟨-, heq⟩ | ⟨nd, hnd, heq⟩⟩
    · rw [heq]; exact hstk
    · rw [heq]
      refine ih _ _ ?_
      have : st.stack.length = rest.length + 1 := by rw [hstk]; rfl
      simp only
      omega
    · rw [heq]
      refine ih _ _ ?_
      obtain ⟨-, hin, hnv⟩ := mem_unvisitedNeighbors.mp hnd
      have hcount := @unvisitedCount_carvePush size st.grid c nd.2
        nd.1 hin hnv
      have hlen : st.stack.length = rest.length + 1 := by rw [hstk]; rfl
      simp only [List.length_cons]
      omega

/-- The loop is a no-op on an empty stack. -/
theorem carveLoop_nil (size : Nat) (rng : Nat → Nat) (fuel k : Nat)
    (st : CarveSt) (h : st.stack = []) : carveLoop size rng fuel k st = st := by
  cases fuel with
  | zero => rfl
  | succ fuel =>
    obtain ⟨g, stk, pu, po⟩ := st
    simp only at h
    subst h
    rfl

/-- Equation of a pop iteration. -/
theorem carveLoop_cons_pop (size : Nat) (rng : Nat → Nat) (fuel k : Nat)
    (g : Grid) (c : Position) (rest : List Position) (pu po : Nat)
    (hns : unvisitedNeighbors size g c = []) :
    carveLoop size rng (fuel + 1) k ⟨g, c :: rest, pu, po⟩ =
      carveLoop size rng fuel (k + 1) ⟨g, rest, pu, po + 1⟩ := by
  simp [carveLoop, hns]

/-- Equation of a push iteration, with the chosen neighbour abstracted. -/
theorem carveLoop_cons_push (size : Nat) (rng : Nat → Nat) (fuel k : Nat)
    (g : Grid) (c : Position) (rest : List Position) (pu po : Nat)
    (hns : ¬ unvisitedNeighbors size g c = []) (choice : Position × Dir)
    (hchoice : choice = (unvisitedNeighbors size g c).get
      ⟨rng k % (unvisitedNeighbors size g c).length,
        Nat.mod_lt _ (List.length_pos.mpr hns)⟩) :
    carveLoop size rng (fuel + 1) k ⟨g, c :: rest, pu, po⟩ =
      carveLoop size rng fuel (k + 1)
        ⟨updateCell (removeWallPair g c choice.2) choice.1
            fun cell => { cell with visited := true },
          choice.1 :: c :: rest, pu + 1, po⟩ := by
  subst hchoice
  simp [carveLoop, hns]

/-- Fuel splits: running `a + b` steps is running `a` then `b`. -/
theorem carveLoop_add (size : Nat) (rng : Nat → Nat) :
    ∀ a b k st, carveLoop size rng (a + b) k st =
      carveLoop size rng b (k + a) (carveLoop size rng a k st) := by
  intro a
  induction a with
  | zero =>
    intro b k st
    rw [Nat.zero_add]
    rfl
  | succ a ih =>
    intro b k st
    obtain ⟨g, stk, pu, po⟩ := st
    cases stk with
    | nil =>
      rw [carveLoop_nil size rng (a + 1 + b) k _ rfl,
        carveLoop_nil size rng (a + 1) k _ rfl,
        carveLoop_nil size rng b (k + (a + 1)) _ rfl]
    | cons c rest =>
      have hsplit : a + 1 + b = (a + b) + 1 := by omega
      rw [hsplit]
      by_cases hns : unvisitedNeighbors size g c = []
      · rw [carveLoop_cons_pop size rng (a + b) k g c rest pu po hns,
          carveLoop_cons_pop size rng a k g c rest pu po hns, ih,
          show k + 1 + a = k + (a + 1) from by omega]
      · rw [carveLoop_cons_push size rng (a + b) k g c rest pu po hns _ rfl,
          carveLoop_cons_push size rng a k g c rest pu po hns _ rfl, ih,
          show k + 1 + a = k + (a + 1) from by omega]

/-! ### Effect of one wall removal on the open-pair predicates -/

theorem stepPos_right_left (c : Position) :
    stepPos (stepPos c .right) .left = c := stepPos_opposite c .right

theorem stepPos_left_right (c : Position) :
    stepPos (stepPos c .left) .right = c := stepPos_opposite c .left

theorem stepPos_bottom_top (c : Position) :
    stepPos (stepPos c .bottom) .top = c := stepPos_opposite c .bottom

theorem stepPos_top_bottom (c : Position) :
    stepPos (stepPos c .top) .bottom = c := stepPos_opposite c .top

/-- `removeWallPair` only clears flags, never sets one. -/
theorem removeWallPair_get_true {g : Grid} {c : Position} {d : Dir}
    {p : Position} {d' : Dir}
    (h : ((removeWallPair g c d) p).walls.get d' = true) :
    (g p).walls.get d' = true := by
  rw [removeWallPair_get] at h
  by_cases h1 : p = c ∧ d' = d
  · rw [if_pos h1] at h
    cases h
  · rw [if_neg h1] at h
    by_cases h2 : p = stepPos c d ∧ d' = d.opposite
    · rw [if_pos h2] at h
      cases h
    · rw [if_neg h2] at h
      exact h

/-- Effect of one wall removal on horizontal open pairs. -/
theorem pairOpenRight_removeWallPair (g : Grid) (c : Position) (d : Dir)
    (p : Position) :
    pairOpenRight (removeWallPair g c d) p ↔
      pairOpenRight g p ∨ (d = .right ∧ p = c) ∨
        (d = .left ∧ p = stepPos c .left) := by
  unfold pairOpenRight
  rw [removeWallPair_get, removeWallPair_get]
  cases d
  case top => simp [Dir.opposite]
  case bottom => simp [Dir.opposite]
  case right =>
    by_cases hpc : p = c
    · subst hpc
      simp [Dir.opposite, (stepPos_ne p .right).symm]
    · have hne : ¬ stepPos p .right = stepPos c .right :=
        fun h => hpc (stepPos_inj .right h)
      simp [Dir.opposite, hpc, hne]
  case left =>
    by_cases hpn : p = stepPos c .left
    · subst hpn
      simp [Dir.opposite, stepPos_left_right]
    · have hq : ¬ stepPos p .right = c :=
        fun h => hpn (by rw [← h, stepPos_right_left])
      simp [Dir.opposite, hpn, hq]

/-- Effect of one wall removal on vertical open pairs. -/
theorem pairOpenBottom_removeWallPair (g : Grid) (c : Position) (d : Dir)
    (p : Position) :
    pairOpenBottom (removeWallPair g c d) p ↔
      pairOpenBottom g p ∨ (d = .bottom ∧ p = c) ∨
        (d = .top ∧ p = stepPos c .top) := by
  unfold pairOpenBottom
  rw [removeWallPair_get, removeWallPair_get]
  cases d
  case right => simp [Dir.opposite]
  case left => simp [Dir.opposite]
  case bottom =>
    by_cases hpc : p = c
    · subst hpc
      simp [Dir.opposite, (stepPos_ne p .bottom).symm]
    · have hne : ¬ stepPos p .bottom = stepPos c .bottom :=
        fun h => hpc (stepPos_inj .bottom h)
      simp [Dir.opposite, hpc, hne]
  case top =>
    by_cases hpn : p = stepPos c .top
    · subst hpn
      simp [Dir.opposite, stepPos_top_bottom]
    · have hq : ¬ stepPos p .bottom = c :=
        fun h => hpn (by rw [← h, stepPos_bottom_top])
      simp [Dir.opposite, hpn, hq]

/-- Effect of one bounds-checked wall removal on the opening graph: exactly
the edge between the two cells of the pair is added. -/
theorem openAdj_removeWallPair {size : Nat} {g : Grid} {c : Position}
    {d : Dir} (hc : inB size c) (hn : inB size (stepPos c d))
    (p q : Position) :
    openAdj size (removeWallPair g c d) p q ↔
      openAdj size g p q ∨ (p = c ∧ q = stepPos c d) ∨
        (p = stepPos c d ∧ q = c) := by
  unfold openAdj
  rw [pairOpenRight_removeWallPair, pairOpenRight_removeWallPair,
    pairOpenBottom_removeWallPair, pairOpenBottom_removeWallPair]
  cases d <;>
    simp only [reduceCtorEq, false_and, false_or, or_false, true_and,
      eq_self_iff_true]
  case right =>
    constructor
    · rintro ⟨hb, hd⟩
      rcases hd with ⟨hq, hpr | rfl⟩ | ⟨hp, hpr | rfl⟩ | ⟨hq, hpb⟩ | ⟨hp, hpb⟩
      · exact Or.inl ⟨hb, Or.inl ⟨hq, hpr⟩⟩
      · exact Or.inr (Or.inl ⟨rfl, hq⟩)
      · exact Or.inl ⟨hb, Or.inr (Or.inl ⟨hp, hpr⟩)⟩
      · exact Or.inr (Or.inr ⟨hp, rfl⟩)
      · exact Or.inl ⟨hb, Or.inr (Or.inr (Or.inl ⟨hq, hpb⟩))⟩
      · exact Or.inl ⟨hb, Or.inr (Or.inr (Or.inr ⟨hp, hpb⟩))⟩
    · rintro (⟨hb, hd⟩ | ⟨rfl, rfl⟩ | ⟨rfl, rfl⟩)
      · refine ⟨hb, ?_⟩
        rcases hd with ⟨hq, hpr⟩ | ⟨hp, hpr⟩ | h | h
        · exact Or.inl ⟨hq, Or.inl hpr⟩
        · exact Or.inr (Or.inl ⟨hp, Or.inl hpr⟩)
        · exact Or.inr (Or.inr (Or.inl h))
        · exact Or.inr (Or.inr (Or.inr h))
      · exact ⟨⟨hc, hn⟩, Or.inl ⟨rfl, Or.inr rfl⟩⟩
      · exact ⟨⟨hn, hc⟩, Or.inr (Or.inl ⟨rfl, Or.inr rfl⟩)⟩
  case left =>
    constructor
    · rintro ⟨hb, hd⟩
      rcases hd with ⟨hq, hpr | rfl⟩ | ⟨hp, hpr | rfl⟩ | ⟨hq, hpb⟩ | ⟨hp, hpb⟩
      · exact Or.inl ⟨hb, Or.inl ⟨hq, hpr⟩⟩
      · exact Or.inr (Or.inr ⟨rfl, by rw [hq, stepPos_left_right]⟩)
      · exact Or.inl ⟨hb, Or.inr (Or.inl ⟨hp, hpr⟩)⟩
      · exact Or.inr (Or.inl ⟨by rw [hp, stepPos_left_right], rfl⟩)
      · exact Or.inl ⟨hb, Or.inr (Or.inr (Or.inl ⟨hq, hpb⟩))⟩
      · exact Or.inl ⟨hb, Or.inr (Or.inr (Or.inr ⟨hp, hpb⟩))⟩
    · rintro (⟨hb, hd⟩ | ⟨hp, hq⟩ | ⟨hp, hq⟩)
      · refine ⟨hb, ?_⟩
        rcases hd with ⟨hq, hpr⟩ | ⟨hp, hpr⟩ | h | h
        · exact Or.inl ⟨hq, Or.inl hpr⟩
        · exact Or.inr (Or.inl ⟨hp, Or.inl hpr⟩)
        · exact Or.inr (Or.inr (Or.inl h))
        · exact Or.inr (Or.inr (Or.inr h))
      · refine ⟨⟨by rw [hp]; exact hc, by rw [hq]; exact hn⟩, ?_⟩
        exact Or.inr (Or.inl ⟨by rw [hp, hq, stepPos_left_right],
          Or.inr hq⟩)
      · refine ⟨⟨by rw [hp]; exact hn, by rw [hq]; exact hc⟩, ?_⟩
        exact Or.inl ⟨by rw [hp, hq, stepPos_left_right], Or.inr hp⟩
  case bottom =>
    constructor
    · rintro ⟨hb, hd⟩
      rcases hd with ⟨hq, hpr⟩ | ⟨hp, hpr⟩ | ⟨hq, hpb | rfl⟩ | ⟨hp, hpb | rfl⟩
      · exact Or.inl ⟨hb, Or.inl ⟨hq, hpr⟩⟩
      · exact Or.inl ⟨hb, Or.inr (Or.inl ⟨hp, hpr⟩)⟩
      · exact Or.inl ⟨hb, Or.inr (Or.inr (Or.inl ⟨hq, hpb⟩))⟩
      · exact Or.inr (Or.inl ⟨rfl, hq⟩)
      · exact Or.inl ⟨hb, Or.inr (Or.inr (Or.inr ⟨hp, hpb⟩))⟩
      · exact Or.inr (Or.inr ⟨hp, rfl⟩)
    · rintro (⟨hb, hd⟩ | ⟨rfl, rfl⟩ | ⟨rfl, rfl⟩)
      · refine ⟨hb, ?_⟩
        rcases hd with ⟨hq, hpr⟩ | ⟨hp, hpr⟩ | ⟨hq, hpb⟩ | ⟨hp, hpb⟩
        · exact Or.inl ⟨hq, hpr⟩
        · exact Or.inr (Or.inl ⟨hp, hpr⟩)
        · exact Or.inr (Or.inr (Or.inl ⟨hq, Or.inl hpb⟩))
        · exact Or.inr (Or.inr (Or.inr ⟨hp, Or.inl hpb⟩))
      · exact ⟨⟨hc, hn⟩, Or.inr (Or.inr (Or.inl ⟨rfl, Or.inr rfl⟩))⟩
      · exact ⟨⟨hn, hc⟩, Or.inr (Or.inr (Or.inr ⟨rfl, Or.inr rfl⟩))⟩
  case top =>
    constructor
    · rintro ⟨hb, hd⟩
      rcases hd with ⟨hq, hpr⟩ | ⟨hp, hpr⟩ | ⟨hq, hpb | rfl⟩ | ⟨hp, hpb | rfl⟩
      · exact Or.inl ⟨hb, Or.inl ⟨hq, hpr⟩⟩
      · exact Or.inl ⟨hb, Or.inr (Or.inl ⟨hp, hpr⟩)⟩
      · exact Or.inl ⟨hb, Or.inr (Or.inr (Or.inl ⟨hq, hpb⟩))⟩
      · exact Or.inr (Or.inr ⟨rfl, by rw [hq, stepPos_top_bottom]⟩)
      · exact Or.inl ⟨hb, Or.inr (Or.inr (Or.inr ⟨hp, hpb⟩))⟩
      · exact Or.inr (Or.inl ⟨by rw [hp, stepPos_top_bottom], rfl⟩)
    · rintro (⟨hb, hd⟩ | ⟨hp, hq⟩ | ⟨hp, hq⟩)
      · refine ⟨hb, ?_⟩
        rcases hd with ⟨hq, hpr⟩ | ⟨hp, hpr⟩ | ⟨hq, hpb⟩ | ⟨hp, hpb⟩
        · exact Or.inl ⟨hq, hpr⟩
        · exact Or.inr (Or.inl ⟨hp, hpr⟩)
        · exact Or.inr (Or.inr (Or.inl ⟨hq, Or.inl hpb⟩))
        · exact Or.inr (Or.inr (Or.inr ⟨hp, Or.inl hpb⟩))
      · refine ⟨⟨by rw [hp]; exact hc, by rw [hq]; exact hn⟩, ?_⟩
        exact Or.inr (Or.inr (Or.inr ⟨by rw [hp, hq, stepPos_top_bottom],
          Or.inr hq⟩))
      · refine ⟨⟨by rw [hp]; exact hn, by rw [hq]; exact hc⟩, ?_⟩
        exact Or.inr (Or.inr (Or.inl ⟨by rw [hp, hq, stepPos_top_bottom],
          Or.inr hp⟩))

/-! ### Congruence, counting and monotonicity for the opening graph -/

theorem pairOpenRight_congr {g1 g2 : Grid}
    (h : ∀ p, (g1 p).walls = (g2 p).walls) (p : Position) :
    pairOpenRight g1 p ↔ pairOpenRight g2 p := by
  unfold pairOpenRight
  rw [h, h]

theorem pairOpenBottom_congr {g1 g2 : Grid}
    (h : ∀ p, (g1 p).walls = (g2 p).walls) (p : Position) :
    pairOpenBottom g1 p ↔ pairOpenBottom g2 p := by
  unfold pairOpenBottom
  rw [h, h]

theorem openCount_congr {size : Nat} {g1 g2 : Grid}
    (h : ∀ p, (g1 p).walls = (g2 p).walls) :
    openCount size g1 = openCount size g2 := by
  unfold openCount
  congr 1
  · apply congrArg
    apply Finset.filter_congr
    intro q _
    rw [pairOpenRight_congr h]
  · apply congrArg
    apply Finset.filter_congr
    intro q _
    rw [pairOpenBottom_congr h]

theorem openAdj_congr {size : Nat} {g1 g2 : Grid}
    (h : ∀ p, (g1 p).walls = (g2 p).walls) (p q : Position) :
    openAdj size g1 p q ↔ openAdj size g2 p q := by
  unfold openAdj
  rw [pairOpenRight_congr h, pairOpenRight_congr h, pairOpenBottom_congr h,
    pairOpenBottom_congr h]

theorem openGraph_congr {size : Nat} {g1 g2 : Grid}
    (h : ∀ p, (g1 p).walls = (g2 p).walls) :
    openGraph size g1 = openGraph size g2 := by
  ext p q
  exact openAdj_congr h p q

/-- Clearing flags only ever adds edges to the opening graph. -/
theorem openGraph_mono {size : Nat} {g1 g2 : Grid}
    (h : ∀ p d, (g2 p).walls.get d = true → (g1 p).walls.get d = true) :
    openGraph size g1 ≤ openGraph size g2 := by
  have hfalse : ∀ p d, (g1 p).walls.get d = false →
      (g2 p).walls.get d = false := by
    intro p d h1
    cases hB : (g2 p).walls.get d
    · rfl
    · rw [h p d hB] at h1
      cases h1
  intro p q hadj
  obtain ⟨hb, hd⟩ := hadj
  refine ⟨hb, ?_⟩
  have hPR : ∀ x, pairOpenRight g1 x → pairOpenRight g2 x := by
    rintro x ⟨h1, h2⟩
    exact ⟨hfalse _ _ h1, hfalse _ _ h2⟩
  have hPB : ∀ x, pairOpenBottom g1 x → pairOpenBottom g2 x := by
    rintro x ⟨h1, h2⟩
    exact ⟨hfalse _ _ h1, hfalse _ _ h2⟩
  rcases hd with ⟨hq, hpr⟩ | ⟨hp, hpr⟩ | ⟨hq, hpb⟩ | ⟨hp, hpb⟩
  · exact Or.inl ⟨hq, hPR _ hpr⟩
  · exact Or.inr (Or.inl ⟨hp, hPR _ hpr⟩)
  · exact Or.inr (Or.inr (Or.inl ⟨hq, hPB _ hpb⟩))
  · exact Or.inr (Or.inr (Or.inr ⟨hp, hPB _ hpb⟩))

/-- Helper: a filter that gains exactly one new element. -/
theorem filter_eq_insert_of_iff {α : Type} [DecidableEq α] {s : Finset α}
    {a : α} {p q : α → Prop} [DecidablePred p] [DecidablePred q]
    (ha : a ∈ s) (hqa : q a)
    (hiff : ∀ x ∈ s, q x ↔ p x ∨ x = a) :
    s.filter q = insert a (s.filter p) := by
  ext x
  simp only [Finset.mem_insert, Finset.mem_filter]
  constructor
  · rintro ⟨hx, hq⟩
    rcases (hiff x hx).mp hq with hp | rfl
    · exact Or.inr ⟨hx, hp⟩
    · exact Or.inl rfl
  · rintro (rfl | ⟨hx, hp⟩)
    · exact ⟨ha, hqa⟩
    · exact ⟨hx, (hiff x hx).mpr (Or.inl hp)⟩

/-- A bounds-checked wall removal whose target cell still has all four walls
increases the number of open pairs by exactly one. -/
theorem openCount_removeWallPair {size : Nat} {g : Grid} {c : Position}
    {d : Dir} (hc : inB size c) (hn : inB size (stepPos c d))
    (hclosed : ∀ d', (g (stepPos c d)).walls.get d' = true) :
    openCount size (removeWallPair g c d) = openCount size g + 1 := by
  unfold openCount
  cases d
  case right =>
    rw [filter_eq_insert_of_iff (a := c)
        (p := fun x => inB size (stepPos x .right) ∧ pairOpenRight g x)
        (mem_cells.mpr hc)
        ⟨hn, (pairOpenRight_removeWallPair g c .right c).mpr
          (Or.inr (Or.inl ⟨rfl, rfl⟩))⟩
        (fun x _ => by
          simp only [pairOpenRight_removeWallPair, true_and, false_and,
            or_false, false_or, reduceCtorEq]
          constructor
          · rintro ⟨hb, hpr | rfl⟩
            · exact Or.inl ⟨hb, hpr⟩
            · exact Or.inr rfl
          · rintro (⟨hb, hpr⟩ | rfl)
            · exact ⟨hb, Or.inl hpr⟩
            · exact ⟨hn, Or.inr rfl⟩),
      Finset.card_insert_of_not_mem (fun hmem => by
        obtain ⟨-, -, -, hopen⟩ := Finset.mem_filter.mp hmem
        rw [hclosed .left] at hopen
        cases hopen),
      Finset.filter_congr
        (p := fun x => inB size (stepPos x .bottom) ∧
          pairOpenBottom (removeWallPair g c .right) x)
        (q := fun x => inB size (stepPos x .bottom) ∧ pairOpenBottom g x)
        (fun x _ => by
          simp only [pairOpenBottom_removeWallPair, false_and, or_false,
            reduceCtorEq])]
    omega
  case left =>
    rw [filter_eq_insert_of_iff (a := stepPos c .left)
        (p := fun x => inB size (stepPos x .right) ∧ pairOpenRight g x)
        (mem_cells.mpr hn)
        ⟨by rw [stepPos_left_right]; exact hc,
          (pairOpenRight_removeWallPair g c .left _).mpr
            (Or.inr (Or.inr ⟨rfl, rfl⟩))⟩
        (fun x _ => by
          simp only [pairOpenRight_removeWallPair, true_and, false_and,
            or_false, false_or, reduceCtorEq]
          constructor
          · rintro ⟨hb, hpr | rfl⟩
            · exact Or.inl ⟨hb, hpr⟩
            · exact Or.inr rfl
          · rintro (⟨hb, hpr⟩ | rfl)
            · exact ⟨hb, Or.inl hpr⟩
            · exact ⟨by rw [stepPos_left_right]; exact hc, Or.inr rfl⟩),
      Finset.card_insert_of_not_mem (fun hmem => by
        obtain ⟨-, -, hopen, -⟩ := Finset.mem_filter.mp hmem
        rw [hclosed .right] at hopen
        cases hopen),
      Finset.filter_congr
        (p := fun x => inB size (stepPos x .bottom) ∧
          pairOpenBottom (removeWallPair g c .left) x)
        (q := fun x => inB size (stepPos x .bottom) ∧ pairOpenBottom g x)
        (fun x _ => by
          simp only [pairOpenBottom_removeWallPair, false_and, or_false,
            reduceCtorEq])]
    omega
  case bottom =>
    rw [filter_eq_insert_of_iff (a := c)
        (p := fun x => inB size (stepPos x .bottom) ∧ pairOpenBottom g x)
        (q := fun x => inB size (stepPos x .bottom) ∧
          pairOpenBottom (removeWallPair g c .bottom) x)
        (mem_cells.mpr hc)
        ⟨hn, (pairOpenBottom_removeWallPair g c .bottom c).mpr
          (Or.inr (Or.inl ⟨rfl, rfl⟩))⟩
        (fun x _ => by
          simp only [pairOpenBottom_removeWallPair, true_and, false_and,
            or_false, false_or, reduceCtorEq]
          constructor
          · rintro ⟨hb, hpb | rfl⟩
            · exact Or.inl ⟨hb, hpb⟩
            · exact Or.inr rfl
          · rintro (⟨hb, hpb⟩ | rfl)
            · exact ⟨hb, Or.inl hpb⟩
            · exact ⟨hn, Or.inr rfl⟩),
      Finset.card_insert_of_not_mem (fun hmem => by
        obtain ⟨-, -, -, hopen⟩ := Finset.mem_filter.mp hmem
        rw [hclosed .top] at hopen
        cases hopen),
      Finset.filter_congr
        (p := fun x => inB size (stepPos x .right) ∧
          pairOpenRight (removeWallPair g c .bottom) x)
        (q := fun x => inB size (stepPos x .right) ∧ pairOpenRight g x)
        (fun x _ => by
          simp only [pairOpenRight_removeWallPair, false_and, or_false,
            reduceCtorEq])]
    omega
  case top =>
    rw [filter_eq_insert_of_iff (a := stepPos c .top)
        (p := fun x => inB size (stepPos x .bottom) ∧ pairOpenBottom g x)
        (q := fun x => inB size (stepPos x .bottom) ∧
          pairOpenBottom (removeWallPair g c .top) x)
        (mem_cells.mpr hn)
        ⟨by rw [stepPos_top_bottom]; exact hc,
          (pairOpenBottom_removeWallPair g c .top _).mpr
            (Or.inr (Or.inr ⟨rfl, rfl⟩))⟩
        (fun x _ => by
          simp only [pairOpenBottom_removeWallPair, true_and, false_and,
            or_false, false_or, reduceCtorEq]
          constructor
          · rintro ⟨hb, hpb | rfl⟩
            · exact Or.inl ⟨hb, hpb⟩
            · exact Or.inr rfl
          · rintro (⟨hb, hpb⟩ | rfl)
            · exact ⟨hb, Or.inl hpb⟩
            · exact ⟨by rw [stepPos_top_bottom]; exact hc, Or.inr rfl⟩),
      Finset.card_insert_of_not_mem (fun hmem => by
        obtain ⟨-, -, hopen, -⟩ := Finset.mem_filter.mp hmem
        rw [hclosed .bottom] at hopen
        cases hopen),
      Finset.filter_congr
        (p := fun x => inB size (stepPos x .right) ∧
          pairOpenRight (removeWallPair g c .top) x)
        (q := fun x => inB size (stepPos x .right) ∧ pairOpenRight g x)
        (fun x _ => by
          simp only [pairOpenRight_removeWallPair, false_and, or_false,
            reduceCtorEq])]
    omega

/-- Adding a single edge to an isolated vertex keeps a graph acyclic: the
new vertex has degree one, and a cycle cannot traverse a degree-one
vertex. -/
theorem isAcyclic_add_leaf {V : Type} {G G' : SimpleGraph V}
    (hG : G.IsAcyclic) {u v : V} (huv : u ≠ v)
    (hiso : ∀ w, ¬ G.Adj v w)
    (hadj : ∀ p q, G'.Adj p q ↔ G.Adj p q ∨ (p = u ∧ q = v) ∨
      (p = v ∧ q = u)) :
    G'.IsAcyclic := by
  classical
  have hvadj : ∀ x, G'.Adj v x → x = u := by
    intro x hx
    rcases (hadj v x).mp hx with h | ⟨hv1, -⟩ | ⟨-, hx2⟩
    · exact absurd h (hiso x)
    · exact absurd hv1.symm huv
    · exact hx2
  intro w cyc hcyc
  by_cases hmem : s(u, v) ∈ cyc.edges
  · have hv : v ∈ cyc.support := cyc.snd_mem_support_of_mem_edges hmem
    have key : ∀ c2 : G'.Walk v v, ¬ c2.IsCycle := by
      intro c2 hc2
      cases c2 with
      | nil => exact SimpleGraph.Walk.IsCycle.not_of_nil hc2
      | cons hadj1 p =>
        rename_i x
        have hmem2 : s(v, x) ∈ p.edges := by
          cases hrev : p.reverse with
          | nil => exact (SimpleGraph.irrefl G' hadj1).elim
          | cons hadj2 q2 =>
            rename_i y
            have hxy : y = x := (hvadj y hadj2).trans (hvadj x hadj1).symm
            have h1 : s(v, y) ∈ p.reverse.edges := by
              rw [hrev]
              exact List.mem_cons_self _ _
            rw [hxy] at h1
            rwa [SimpleGraph.Walk.edges_reverse, List.mem_reverse] at h1
        have hnodup := hc2.edges_nodup
        rw [SimpleGraph.Walk.edges_cons] at hnodup
        exact (List.nodup_cons.mp hnodup).1 hmem2
    exact key (cyc.rotate hv) (hcyc.rotate hv)
  · have hedges : ∀ e ∈ cyc.edges, e ∈ G.edgeSet := by
      intro e
      induction e using Sym2.ind with
      | _ a b =>
        intro hab
        have hab2 : G'.Adj a b :=
          (SimpleGraph.mem_edgeSet G').mp (cyc.edges_subset_edgeSet hab)
        rw [SimpleGraph.mem_edgeSet]
        rcases (hadj a b).mp hab2 with h | ⟨rfl, rfl⟩ | ⟨rfl, rfl⟩
        · exact h
        · exact absurd hab hmem
        · rw [Sym2.eq_swap] at hab
          exact absurd hab hmem
    exact hG (cyc.transfer G hedges) (hcyc.transfer hedges)

/-! ### The carving-loop invariant -/

/-- The invariant maintained by every iteration of the carving loop:
stack cells are in-bounds and visited; unvisited cells still have all four
walls; a visited cell that has left the stack has no unvisited in-bounds
neighbour; every visited cell is reachable from the start through open
pairs; the opening graph is acyclic; the number of open pairs is one less
than the number of visited cells; the push counter equals the number of
visited cells; and pops plus the current stack height equal pushes. -/
structure CarveInv (size : Nat) (st : CarveSt) : Prop where
  stack_mem : ∀ p ∈ st.stack, inB size p ∧ (st.grid p).visited = true
  unvisited_walls : ∀ p, (st.grid p).visited = false →
    (st.grid p).walls = ⟨true, true, true, true⟩
  closed_complete : ∀ p, (st.grid p).visited = true → p ∉ st.stack →
    ∀ d, inB size (stepPos p d) → (st.grid (stepPos p d)).visited = true
  reach : ∀ p, inB size p → (st.grid p).visited = true →
    (openGraph size st.grid).Reachable ⟨0, 0⟩ p
  acyclic : (openGraph size st.grid).IsAcyclic
  count : openCount size st.grid + 1 = visitedCount size st.grid
  pushes_eq : st.pushes = visitedCount size st.grid
  pops_eq : st.pops + st.stack.length = st.pushes

theorem Walls.get_all_true (d : Dir) :
    (⟨true, true, true, true⟩ : Walls).get d = true := by
  cases d <;> rfl

/-- A cell that still has all four walls is isolated in the opening
graph. -/
theorem isolated_of_walls_all_true {size : Nat} {g : Grid} {p : Position}
    (hw : (g p).walls = ⟨true, true, true, true⟩) :
    ∀ w, ¬ openAdj size g p w := by
  rintro w ⟨-, hd⟩
  rcases hd with ⟨-, h1, -⟩ | ⟨he, -, h2⟩ | ⟨-, h1, -⟩ | ⟨he, -, h2⟩
  · rw [hw, Walls.get_all_true] at h1
    cases h1
  · rw [← he, hw, Walls.get_all_true] at h2
    cases h2
  · rw [hw, Walls.get_all_true] at h1
    cases h1
  · rw [← he, hw, Walls.get_all_true] at h2
    cases h2

theorem carveStart_visited (p : Position) :
    (carveStart p).visited = (if p = ⟨0, 0⟩ then true else false) := by
  unfold carveStart
  rw [updateVisited_visited]
  split <;> rfl

theorem carveStart_walls (p : Position) :
    (carveStart p).walls = ⟨true, true, true, true⟩ := by
  unfold carveStart
  rw [updateVisited_walls]
  rfl

theorem visitedCount_carveStart {size : Nat} (hsize : 1 ≤ size) :
    visitedCount size carveStart = 1 := by
  unfold visitedCount
  have hset : ((cells size).filter fun p => (carveStart p).visited = true) =
      {(⟨0, 0⟩ : Position)} := by
    ext q
    rw [Finset.mem_filter, Finset.mem_singleton, carveStart_visited]
    constructor
    · rintro ⟨-, hv⟩
      by_cases hq : q = ⟨0, 0⟩
      · exact hq
      · rw [if_neg hq] at hv
        cases hv
    · rintro rfl
      have hstart : inB size (⟨0, 0⟩ : Position) := by
        refine ⟨le_refl 0, ?_, le_refl 0, ?_⟩ <;>
          · show (0 : Int) < (size : Int)
            exact_mod_cast hsize
      exact ⟨mem_cells.mpr hstart, by rw [if_pos rfl]⟩
  rw [hset, Finset.card_singleton]

theorem unvisitedCount_carveStart {size : Nat} (hsize : 1 ≤ size) :
    unvisitedCount size carveStart + 1 = size * size := by
  unfold unvisitedCount
  have hset : ((cells size).filter fun p => ¬(carveStart p).visited = true) =
      (cells size).erase ⟨0, 0⟩ := by
    ext q
    rw [Finset.mem_filter, Finset.mem_erase, carveStart_visited]
    constructor
    · rintro ⟨hq, hv⟩
      refine ⟨?_, hq⟩
      rintro rfl
      rw [if_pos rfl] at hv
      exact hv rfl
    · rintro ⟨hne, hq⟩
      exact ⟨hq, by rw [if_neg hne]; exact fun h => by cases h⟩
  rw [hset, Finset.card_erase_add_one, card_cells]
  refine mem_cells.mpr ⟨le_refl 0, ?_, le_refl 0, ?_⟩ <;>
    · show (0 : Int) < (size : Int)
      exact_mod_cast hsize

theorem openCount_carveStart (size : Nat) : openCount size carveStart = 0 := by
  unfold openCount
  rw [Finset.filter_eq_empty_iff.mpr, Finset.filter_eq_empty_iff.mpr,
    Finset.card_empty]
  · intro q _
    rintro ⟨-, h1, -⟩
    rw [carveStart_walls, Walls.get_all_true] at h1
    cases h1
  · intro q _
    rintro ⟨-, h1, -⟩
    rw [carveStart_walls, Walls.get_all_true] at h1
    cases h1

/-- The invariant holds right before the loop starts. -/
theorem carveInv_init (size : Nat) (hsize : 1 ≤ size) :
    CarveInv size ⟨carveStart, [⟨0, 0⟩], 1, 0⟩ := by
  have hstart : inB size (⟨0, 0⟩ : Position) := by
    refine ⟨le_refl 0, ?_, le_refl 0, ?_⟩ <;>
      · show (0 : Int) < (size : Int)
        exact_mod_cast hsize
  have hiso : ∀ p w, ¬ openAdj size carveStart p w := fun p w =>
    isolated_of_walls_all_true (carveStart_walls p) w
  refine ⟨?_, ?_, ?_, ?_, ?_, ?_, ?_, ?_⟩
  · intro p hp
    rcases List.mem_singleton.mp hp with rfl
    exact ⟨hstart, by rw [carveStart_visited, if_pos rfl]⟩
  · intro p _
    exact carveStart_walls p
  · intro p hv hns d _
    rw [carveStart_visited] at hv
    by_cases hp : p = ⟨0, 0⟩
    · exact absurd (List.mem_singleton.mpr hp) hns
    · rw [if_neg hp] at hv
      cases hv
  · intro p _ hv
    rw [carveStart_visited] at hv
    by_cases hp : p = ⟨0, 0⟩
    · rw [hp]
    · rw [if_neg hp] at hv
      cases hv
  · intro w c hc
    cases c with
    | nil => exact SimpleGraph.Walk.IsCycle.not_of_nil hc
    | cons hadj p => exact hiso _ _ hadj
  · rw [openCount_carveStart, visitedCount_carveStart hsize]
  · rw [visitedCount_carveStart hsize]
  · rfl

/-- If the neighbour list is empty, every in-bounds neighbour is already
visited. -/
theorem unvisitedNeighbors_nil {size : Nat} {g : Grid} {c : Position}
    (hns : unvisitedNeighbors size g c = []) :
    ∀ d, inB size (stepPos c d) → (g (stepPos c d)).visited = true := by
  intro d hd
  cases hv : (g (stepPos c d)).visited
  · have hmem : (stepPos c d, d) ∈ unvisitedNeighbors size g c :=
      mem_unvisitedNeighbors.mpr ⟨rfl, hd, hv⟩
    rw [hns] at hmem
    exact absurd hmem (List.not_mem_nil _)
  · rfl

/-- The invariant is preserved by the whole loop. -/
theorem carveLoop_inv (size : Nat) (rng : Nat → Nat) :
    ∀ fuel k st, CarveInv size st →
      CarveInv size (carveLoop size rng fuel k st) := by
  intro fuel
  induction fuel with
  | zero => intro k st h; exact h
  | succ fuel ih =>
    intro k st hInv
    rcases carveLoop_succ size rng fuel k st with ⟨-, heq⟩ |
      ⟨c, rest, hstk, ⟨hns, heq⟩ | ⟨nd, hnd, heq⟩⟩
    · rw [heq]; exact hInv
    · -- pop step
      rw [heq]
      refine ih _ _ ?_
      obtain ⟨sm, uw, cc, re, ac, cnt, pe, po⟩ := hInv
      have hlen : st.stack.length = rest.length + 1 := by rw [hstk]; rfl
      have f1 : ∀ p ∈ rest, inB size p ∧ (st.grid p).visited = true :=
        fun p hp => sm p (hstk ▸ List.mem_cons_of_mem c hp)
      have f3 : ∀ p, (st.grid p).visited = true → p ∉ rest →
          ∀ d, inB size (stepPos p d) →
            (st.grid (stepPos p d)).visited = true := by
        intro p hv hnr d hd
        by_cases hpc : p = c
        · subst hpc
          exact unvisitedNeighbors_nil hns d hd
        · refine cc p hv ?_ d hd
          rw [hstk]
          intro hmem
          rcases List.mem_cons.mp hmem with h | h
          · exact hpc h
          · exact hnr h
      have f8 : (st.pops + 1) + rest.length = st.pushes := by omega
      exact ⟨f1, uw, f3, re, ac, cnt, pe, f8⟩
    · -- push step
      rw [heq]
      refine ih _ _ ?_
      obtain ⟨sm, uw, cc, re, ac, cnt, pe, po⟩ := hInv
      obtain ⟨hstep, hin, hnv⟩ := mem_unvisitedNeighbors.mp hnd
      obtain ⟨hcin, hcvis⟩ := sm c (hstk ▸ List.mem_cons_self c rest)
      have hnin : inB size (stepPos c nd.2) := hstep ▸ hin
      have hw_n : (st.grid nd.1).walls = ⟨true, true, true, true⟩ := uw _ hnv
      have hclosed : ∀ d', (st.grid (stepPos c nd.2)).walls.get d' = true := by
        intro d'
        rw [← hstep, hw_n]
        exact Walls.get_all_true d'
      set g2 := updateCell (removeWallPair st.grid c nd.2) nd.1
        (fun cell => { cell with visited := true }) with hg2
      have hwalls2 : ∀ p, (g2 p).walls =
          ((removeWallPair st.grid c nd.2) p).walls :=
        fun p => updateVisited_walls _ _ _
      have hvis2 : ∀ p, (g2 p).visited =
          (if p = nd.1 then true else (st.grid p).visited) :=
        fun p => carvePush_visited _ _ _ _ _
      have hGeq : openGraph size g2 =
          openGraph size (removeWallPair st.grid c nd.2) :=
        openGraph_congr hwalls2
      have hle : openGraph size st.grid ≤
          openGraph size (removeWallPair st.grid c nd.2) :=
        openGraph_mono fun p d h => removeWallPair_get_true h
      have hAdj : ∀ p q, openAdj size (removeWallPair st.grid c nd.2) p q ↔
          openAdj size st.grid p q ∨ (p = c ∧ q = nd.1) ∨
            (p = nd.1 ∧ q = c) := by
        intro p q
        have h := openAdj_removeWallPair (g := st.grid) hcin hnin p q
        rw [← hstep] at h
        exact h
      have hcne : c ≠ nd.1 :=
        fun h => stepPos_ne c nd.2 (hstep.symm.trans h.symm)
      have f1 : ∀ p ∈ nd.1 :: c :: rest,
          inB size p ∧ (g2 p).visited = true := by
        intro p hp
        rcases List.mem_cons.mp hp with rfl | hp
        · exact ⟨hin, by rw [hvis2, if_pos rfl]⟩
        · obtain ⟨hb, hv⟩ := sm p (hstk ▸ hp)
          refine ⟨hb, ?_⟩
          rw [hvis2]
          split
          · rfl
          · exact hv
      have f2 : ∀ p, (g2 p).visited = false →
          (g2 p).walls = ⟨true, true, true, true⟩ := by
        intro p hv
        have hpn : p ≠ nd.1 := by
          intro h
          rw [hvis2, if_pos h] at hv
          cases hv
        rw [hvis2, if_neg hpn] at hv
        have hpc : p ≠ c := fun h => by rw [h, hcvis] at hv; cases hv
        rw [hwalls2, removeWallPair_walls,
          if_neg (fun h => hpn (h.trans hstep.symm)), if_neg hpc]
        exact uw p hv
      have f3 : ∀ p, (g2 p).visited = true → p ∉ nd.1 :: c :: rest →
          ∀ d, inB size (stepPos p d) →
            (g2 (stepPos p d)).visited = true := by
        intro p hv hnmem d hd
        have hpn : p ≠ nd.1 :=
          fun h => hnmem (h ▸ List.mem_cons_self _ _)
        rw [hvis2, if_neg hpn] at hv
        have hpold : p ∉ st.stack := by
          rw [hstk]
          intro hmem
          exact hnmem (List.mem_cons_of_mem nd.1 hmem)
        have hold := cc p hv hpold d hd
        rw [hvis2]
        split
        · rfl
        · exact hold
      have f4 : ∀ p, inB size p → (g2 p).visited = true →
          (openGraph size g2).Reachable ⟨0, 0⟩ p := by
        intro p hb hv
        rw [hGeq]
        rw [hvis2] at hv
        by_cases hpn : p = nd.1
        · subst hpn
          refine ((re c hcin hcvis).mono hle).trans ?_
          exact SimpleGraph.Adj.reachable
            ((hAdj c nd.1).mpr (Or.inr (Or.inl ⟨rfl, rfl⟩)))
        · rw [if_neg hpn] at hv
          exact (re p hb hv).mono hle
      have f5 : (openGraph size g2).IsAcyclic := by
        rw [hGeq]
        exact isAcyclic_add_leaf ac hcne
          (fun w => isolated_of_walls_all_true hw_n w) hAdj
      have hoc : openCount size g2 = openCount size st.grid + 1 := by
        rw [openCount_congr hwalls2]
        exact openCount_removeWallPair hcin hnin hclosed
      have hvc : visitedCount size g2 = visitedCount size st.grid + 1 :=
        visitedCount_carvePush _ _ _ _ hin hnv
      have f6 : openCount size g2 + 1 = visitedCount size g2 := by omega
      have f7 : st.pushes + 1 = visitedCount size g2 := by omega
      have hlen : st.stack.length = rest.length + 1 := by rw [hstk]; rfl
      have f8 : st.pops + (nd.1 :: c :: rest).length = st.pushes + 1 := by
        simp only [List.length_cons]
        omega
      exact ⟨f1, f2, f3, f4, f5, f6, f7, f8⟩

/-! ### The carved maze -/

theorem carve_inv (size : Nat) (rng : Nat → Nat) (hsize : 1 ≤ size) :
    CarveInv size (carve size rng) :=
  carveLoop_inv size rng _ _ _ (carveInv_init size hsize)

theorem carve_stack_empty (size : Nat) (rng : Nat → Nat) (hsize : 1 ≤ size) :
    (carve size rng).stack = [] := by
  refine carveLoop_empties size rng _ _ _ ?_
  have h := @unvisitedCount_carveStart size hsize
  show 2 * unvisitedCount size carveStart +
    ([(⟨0, 0⟩ : Position)]).length ≤ 2 * size * size
  have hmul : 2 * size * size = 2 * (size * size) := by ring
  rw [hmul]
  simp only [List.length_singleton]
  omega

theorem carveLoop_visited_mono (size : Nat) (rng : Nat → Nat) :
    ∀ fuel k st p, (st.grid p).visited = true →
      ((carveLoop size rng fuel k st).grid p).visited = true := by
  intro fuel
  induction fuel with
  | zero => intro k st p h; exact h
  | succ fuel ih =>
    intro k st p h
    rcases carveLoop_succ size rng fuel k st with ⟨-, heq⟩ |
      ⟨c, rest, hstk, ⟨-, heq⟩ | ⟨nd, hnd, heq⟩⟩
    · rw [heq]; exact h
    · rw [heq]; exact ih _ _ _ h
    · rw [heq]
      refine ih _ _ _ ?_
      have h2 : ((updateCell (removeWallPair st.grid c nd.2) nd.1
          fun cell => { cell with visited := true }) p).visited = true := by
        rw [carvePush_visited]
        split
        · rfl
        · exact h
      exact h2

theorem carve_all_visited (size : Nat) (rng : Nat → Nat) (hsize : 1 ≤ size) :
    ∀ p, inB size p → ((carve size rng).grid p).visited = true := by
  have hinv := carve_inv size rng hsize
  have hempty := carve_stack_empty size rng hsize
  have hstart : ((carve size rng).grid ⟨0, 0⟩).visited = true := by
    apply carveLoop_visited_mono
    show (carveStart ⟨0, 0⟩).visited = true
    rw [carveStart_visited, if_pos rfl]
  have hclosed : ∀ p, ((carve size rng).grid p).visited = true →
      ∀ d, inB size (stepPos p d) →
        ((carve size rng).grid (stepPos p d)).visited = true := by
    intro p hv d hd
    exact hinv.closed_complete p hv
      (by rw [hempty]; exact List.not_mem_nil p) d hd
  have hrow : ∀ a : Nat, a < size →
      ((carve size rng).grid ⟨(a : Int), 0⟩).visited = true := by
    intro a
    induction a with
    | zero => intro _; exact hstart
    | succ a iha =>
      intro ha
      have hva := iha (by omega)
      have hstep : stepPos ⟨(a : Int), 0⟩ .right =
          ⟨((a + 1 : Nat) : Int), 0⟩ := by
        show (⟨(a : Int) + 1, (0 : Int) + 0⟩ : Position) = _
        rw [Position.mk.injEq]
        exact ⟨by omega, by omega⟩
      have hd : inB size (stepPos ⟨(a : Int), 0⟩ .right) := by
        rw [hstep]
        refine ⟨?_, ?_, ?_, ?_⟩
        · show (0 : Int) ≤ ((a + 1 : Nat) : Int)
          omega
        · show ((a + 1 : Nat) : Int) < (size : Int)
          omega
        · show (0 : Int) ≤ (0 : Int)
          omega
        · show (0 : Int) < (size : Int)
          omega
      have hres := hclosed _ hva .right hd
      rw [hstep] at hres
      exact hres
  have hcol : ∀ b : Nat, b < size → ∀ a : Nat, a < size →
      ((carve size rng).grid ⟨(a : Int), (b : Int)⟩).visited = true := by
    intro b
    induction b with
    | zero => intro _ a ha; exact hrow a ha
    | succ b ihb =>
      intro hb a ha
      have hvb := ihb (by omega) a ha
      have hstep : stepPos ⟨(a : Int), (b : Int)⟩ .bottom =
          ⟨(a : Int), ((b + 1 : Nat) : Int)⟩ := by
        show (⟨(a : Int) + 0, (b : Int) + 1⟩ : Position) = _
        rw [Position.mk.injEq]
        exact ⟨by omega, by omega⟩
      have hd : inB size (stepPos ⟨(a : Int), (b : Int)⟩ .bottom) := by
        rw [hstep]
        refine ⟨?_, ?_, ?_, ?_⟩
        · show (0 : Int) ≤ (a : Int)
          omega
        · show (a : Int) < (size : Int)
          omega
        · show (0 : Int) ≤ ((b + 1 : Nat) : Int)
          omega
        · show ((b + 1 : Nat) : Int) < (size : Int)
          omega
      have hres := hclosed _ hvb .bottom hd
      rw [hstep] at hres
      exact hres
  intro p hp
  obtain ⟨x, y⟩ := p
  have hp4 : 0 ≤ x ∧ x < (size : Int) ∧ 0 ≤ y ∧ y < (size : Int) := hp
  obtain ⟨h1, h2, h3, h4⟩ := hp4
  have hres := hcol y.toNat (by omega) x.toNat (by omega)
  have hxc : ((x.toNat : Nat) : Int) = x := by omega
  have hyc : ((y.toNat : Nat) : Int) = y := by omega
  rw [hxc, hyc] at hres
  exact hres

theorem carve_visitedCount (size : Nat) (rng : Nat → Nat)
    (hsize : 1 ≤ size) :
    visitedCount size (carve size rng).grid = size * size := by
  unfold visitedCount
  rw [Finset.filter_true_of_mem, card_cells]
  intro p hp
  exact carve_all_visited size rng hsize p (mem_cells.mp hp)

theorem carve_openCount (size : Nat) (rng : Nat → Nat) (hsize : 1 ≤ size) :
    openCount size (carve size rng).grid + 1 = size * size := by
  have h := (carve_inv size rng hsize).count
  rw [carve_visitedCount size rng hsize] at h
  exact h

theorem carve_reach (size : Nat) (rng : Nat → Nat) (hsize : 1 ≤ size) :
    ∀ p q, inB size p → inB size q →
      (openGraph size (carve size rng).grid).Reachable p q := by
  intro p q hp hq
  have h1 := (carve_inv size rng hsize).reach p hp
    (carve_all_visited size rng hsize p hp)
  have h2 := (carve_inv size rng hsize).reach q hq
    (carve_all_visited size rng hsize q hq)
  exact h1.symm.trans h2

theorem carve_fuel_independent (size : Nat) (rng : Nat → Nat)
    (hsize : 1 ≤ size) :
    ∀ fuel, 2 * size * size ≤ fuel →
      carveLoop size rng fuel 0
        ⟨carveStart, [⟨0, 0⟩], 1, 0⟩ = carve size rng := by
  intro fuel hle
  obtain ⟨e, rfl⟩ := Nat.exists_eq_add_of_le hle
  rw [carveLoop_add]
  exact carveLoop_nil size rng e _ _ (carve_stack_empty size rng hsize)

/-- **C1.** After the carving phase (before any braiding), for every size
`N ≥ 2` and every random stream, exactly `N² - 1` wall pairs are open, the
graph whose vertices are the cells and whose edges are the open wall pairs
is connected and acyclic — a spanning tree — and between every pair of
cells there is exactly one simple path of openings. -/
theorem carve_spanning_tree (size : Nat) (rng : Nat → Nat)
    (hsize : 2 ≤ size) :
    openCount size (carve size rng).grid = size * size - 1 ∧
    (∀ p q, inB size p → inB size q →
      (openGraph size (carve size rng).grid).Reachable p q) ∧
    (openGraph size (carve size rng).grid).IsAcyclic ∧
    (∀ p q, inB size p → inB size q →
      ∃! w : (openGraph size (carve size rng).grid).Walk p q, w.IsPath) := by
  have h1 : 1 ≤ size := by omega
  refine ⟨?_, carve_reach size rng h1, (carve_inv size rng h1).acyclic, ?_⟩
  · have h := carve_openCount size rng h1
    omega
  · intro p q hp hq
    obtain ⟨w0⟩ := carve_reach size rng h1 p q hp hq
    refine ⟨(w0.toPath : (openGraph size (carve size rng).grid).Walk p q),
      w0.toPath.2, ?_⟩
    intro w hw
    have huniq := (carve_inv size rng h1).acyclic.path_unique ⟨w, hw⟩
      w0.toPath
    exact congrArg Subtype.val huniq

/-- Witness for C1: the carved 2×2 maze has exactly 3 open wall pairs. -/
theorem carve_spanning_tree_witness :
    (2 : Nat) ≤ 2 ∧ openCount 2 (carve 2 rng0).grid = 2 * 2 - 1 :=
  ⟨by decide, (carve_spanning_tree 2 rng0 (by decide)).1⟩

/-- **C9.** The stack-based carving loop is total: for every size `N ≥ 2`
and random stream the loop terminates (the stack is empty, and granting it
any more fuel than `2N²` changes nothing), it performs exactly `N²` pushes
and exactly `N²` pops, and every cell ends up visited (each cell is marked
exactly once, since a cell is pushed only at the moment it turns from
unvisited to visited and the push counter equals the number of visited
cells). -/
theorem carve_total_counts (size : Nat) (rng : Nat → Nat)
    (hsize : 2 ≤ size) :
    (carve size rng).stack = [] ∧
    (carve size rng).pushes = size * size ∧
    (carve size rng).pops = size * size ∧
    (∀ p, inB size p → ((carve size rng).grid p).visited = true) ∧
    (∀ fuel, 2 * size * size ≤ fuel →
      carveLoop size rng fuel 0 ⟨carveStart, [⟨0, 0⟩], 1, 0⟩ =
        carve size rng) := by
  have h1 : 1 ≤ size := by omega
  have hempty := carve_stack_empty size rng h1
  have hpush : (carve size rng).pushes = size * size := by
    rw [(carve_inv size rng h1).pushes_eq, carve_visitedCount size rng h1]
  have hpop := (carve_inv size rng h1).pops_eq
  have hlen : (carve size rng).stack.length = 0 := by rw [hempty]; rfl
  refine ⟨hempty, hpush, by omega, carve_all_visited size rng h1,
    carve_fuel_independent size rng h1⟩

/-- Witness for C9: concrete termination and counts at size 2. -/
theorem carve_total_counts_witness :
    (2 : Nat) ≤ 2 ∧ (carve 2 rng0).stack = [] ∧
      (carve 2 rng0).pushes = 2 * 2 :=
  ⟨by decide, (carve_total_counts 2 rng0 (by decide)).1,
    (carve_total_counts 2 rng0 (by decide)).2.1⟩

/-! ### Braiding only removes walls -/

theorem braidStep_get_true {size : Nat} {g : Grid} {r1 r2 r3 : Nat}
    {p : Position} {d : Dir}
    (h : ((braidStep size g r1 r2 r3) p).walls.get d = true) :
    (g p).walls.get d = true := by
  revert h
  simp only [braidStep]
  split
  · exact id
  · split
    · exact fun h => removeWallPair_get_true h
    · exact id

theorem braidIter_get_true {size : Nat} (rng : Nat → Nat) :
    ∀ i (g : Grid) p d,
      ((braidIter size rng i g) p).walls.get d = true →
        (g p).walls.get d = true := by
  intro i
  induction i with
  | zero => intro g p d h; exact h
  | succ i ih =>
    intro g p d h
    simp only [braidIter] at h
    exact braidStep_get_true (ih _ p d h)

theorem openGraph_le_braidIter (size : Nat) (rng : Nat → Nat) (i : Nat)
    (g : Grid) :
    openGraph size g ≤ openGraph size (braidIter size rng i g) :=
  openGraph_mono fun p d h => braidIter_get_true rng i g p d h

theorem openCount_le_braidIter (size : Nat) (rng : Nat → Nat) (i : Nat)
    (g : Grid) :
    openCount size g ≤ openCount size (braidIter size rng i g) := by
  have hfalse : ∀ p d, (g p).walls.get d = false →
      ((braidIter size rng i g) p).walls.get d = false := by
    intro p d h1
    cases hB : ((braidIter size rng i g) p).walls.get d
    · rfl
    · rw [braidIter_get_true rng i g p d hB] at h1
      cases h1
  unfold openCount
  refine Nat.add_le_add ?_ ?_ <;>
    · apply Finset.card_le_card
      intro x hx
      rw [Finset.mem_filter] at hx ⊢
      obtain ⟨hc, hb, hpr⟩ := hx
      exact ⟨hc, hb, hfalse _ _ hpr.1, hfalse _ _ hpr.2⟩

/-- **C6.** Braiding only ever removes walls (it never restores one), so it
can only add edges to the opening graph: any grid whose cells are mutually
reachable stays mutually reachable after any number of braiding iterations.
In particular the braided maze produced for hard difficulty is still
connected, its start `(0,0)` and goal `(N-1,N-1)` are mutually reachable,
and it has at least `N² - 1` open wall pairs. -/
theorem braiding_preserves_connectivity (size : Nat)
    (rngC rngB : Nat → Nat) (hsize : 2 ≤ size) :
    (∀ g i p d, ((braidIter size rngB i g) p).walls.get d = true →
      (g p).walls.get d = true) ∧
    (∀ g i, (∀ p q, inB size p → inB size q →
        (openGraph size g).Reachable p q) →
      ∀ p q, inB size p → inB size q →
        (openGraph size (braidIter size rngB i g)).Reachable p q) ∧
    (∀ p q, inB size p → inB size q →
      (openGraph size
        (braid size rngB (carve size rngC).grid)).Reachable p q) ∧
    (openGraph size (braid size rngB (carve size rngC).grid)).Reachable
      ⟨0, 0⟩ (goal size) ∧
    size * size - 1 ≤
      openCount size (braid size rngB (carve size rngC).grid) := by
  have h1 : 1 ≤ size := by omega
  have hreach : ∀ g i, (∀ p q, inB size p → inB size q →
      (openGraph size g).Reachable p q) →
      ∀ p q, inB size p → inB size q →
        (openGraph size (braidIter size rngB i g)).Reachable p q :=
    fun g i h p q hp hq =>
      (h p q hp hq).mono (openGraph_le_braidIter size rngB i g)
  have hstart : inB size (⟨0, 0⟩ : Position) := by
    refine ⟨le_refl 0, ?_, le_refl 0, ?_⟩ <;>
      · show (0 : Int) < (size : Int)
        exact_mod_cast h1
  have hgoal : inB size (goal size) := by
    refine ⟨?_, ?_, ?_, ?_⟩
    · show (0 : Int) ≤ (size : Int) - 1
      omega
    · show (size : Int) - 1 < (size : Int)
      omega
    · show (0 : Int) ≤ (size : Int) - 1
      omega
    · show (size : Int) - 1 < (size : Int)
      omega
  have hconn : ∀ p q, inB size p → inB size q →
      (openGraph size
        (braid size rngB (carve size rngC).grid)).Reachable p q :=
    fun p q hp hq =>
      hreach _ _ (carve_reach size rngC h1) p q hp hq
  refine ⟨fun g i p d h => braidIter_get_true rngB i g p d h, hreach,
    hconn, hconn _ _ hstart hgoal, ?_⟩
  have hc := carve_openCount size rngC h1
  have hle := openCount_le_braidIter size rngB (extraPaths size)
    (carve size rngC).grid
  have hbr : braid size rngB (carve size rngC).grid =
      braidIter size rngB (extraPaths size) (carve size rngC).grid := rfl
  rw [hbr]
  omega

/-- Witness for C6: start and goal of the braided 2×2 hard maze are
mutually reachable. -/
theorem braiding_preserves_connectivity_witness :
    (2 : Nat) ≤ 2 ∧
    (openGraph 2 (braid 2 rng0 (carve 2 rng0).grid)).Reachable ⟨0, 0⟩
      (goal 2) :=
  ⟨by decide, (braiding_preserves_connectivity 2 rng0 rng0 (by decide)).2.2.2.1⟩

end MazeRunner
